import Mathlib

/-!
# Row storage engine of `db_tutorial` (`src/main.c`)

A shallow embedding of the table / row part of `main.c` and the properties of
its row codec, slot resolver and table operations.

Conventions of the embedding.

* A byte is a `Nat` below 256, a `uint32_t` is a `Nat` below `2 ^ 32`.
* A block of memory (a page returned by `malloc`, or any buffer handed to the
  codec) is the list of its bytes; a pointer into a block is a byte offset.
* C operations whose behaviour is undefined (an access outside an array or
  outside a block, a dereference of a null page) give `Except.error`; the
  loops carry fuel and report its exhaustion by a separate fault.
* The contents of freshly `malloc`ed memory are indeterminate; every function
  that may call `malloc` takes them as the parameter `junk`.
-/

namespace DbTutorial

/-! ## Layout constants (`main.c` lines 9-28) -/

/-- Number of values of a `uint32_t`. -/
def UINT32_RANGE : Nat := 2 ^ 32

def COLUMN_USERNAME_SIZE : Nat := 32
def COLUMN_EMAIL_SIZE : Nat := 255

/-- The struct `Row`: a `uint32_t` and two fixed `char` arrays. -/
structure Row where
  id : Nat
  username : List Nat
  email : List Nat
deriving DecidableEq

/-- The values of the C type `Row`: the id fits 32 bits, the two arrays have
their declared number of elements, each element is a byte. -/
def Row.WF (r : Row) : Prop :=
  r.id < UINT32_RANGE ∧
  r.username.length = COLUMN_USERNAME_SIZE ∧ r.email.length = COLUMN_EMAIL_SIZE ∧
  (∀ b ∈ r.username, b < 256) ∧ (∀ b ∈ r.email, b < 256)

instance (r : Row) : Decidable r.WF :=
  inferInstanceAs (Decidable (_ ∧ _ ∧ _ ∧ _ ∧ _))

def ID_OFFSET : Nat := 0
/-- The value of `size_of_attribute(Row, id)`, the size of a `uint32_t`. -/
def ID_SIZE : Nat := 4
def USERNAME_OFFSET : Nat := ID_OFFSET + ID_SIZE
/-- The value of `size_of_attribute(Row, username)`. -/
def USERNAME_SIZE : Nat := COLUMN_USERNAME_SIZE
def EMAIL_OFFSET : Nat := USERNAME_OFFSET + USERNAME_SIZE
/-- The value of `size_of_attribute(Row, email)`. -/
def EMAIL_SIZE : Nat := COLUMN_EMAIL_SIZE
def ROW_SIZE : Nat := ID_SIZE + USERNAME_SIZE + EMAIL_SIZE
def PAGE_SIZE : Nat := 4096
def TABLE_MAX_PAGES : Nat := 100
def ROWS_PER_PAGE : Nat := PAGE_SIZE / ROW_SIZE
def TABLE_MAX_ROWS : Nat := ROWS_PER_PAGE * TABLE_MAX_PAGES

/-! ## Memory -/

/-- What goes wrong in an execution of the embedding. -/
inductive Fault where
  /-- An access outside an array or outside an allocated block. -/
  | outOfBounds
  /-- A dereference of a null page pointer. -/
  | nullPointer
  /-- A loop of the embedding used up its fuel. -/
  | outOfFuel
deriving DecidableEq

/-- Object representation of a `uint32_t`: its four bytes, least significant
first. -/
def u32Bytes (x : Nat) : List Nat :=
  [x % 256, x / 256 % 256, x / 65536 % 256, x / 16777216 % 256]

/-- The `uint32_t` whose object representation is the given bytes. -/
def bytesU32 (bs : List Nat) : Nat :=
  bs.foldr (fun b acc => b + 256 * acc) 0

/-- The `n` bytes of block `mem` at offset `off`. -/
def memRead (mem : List Nat) (off n : Nat) : Except Fault (List Nat) :=
  if off + n ≤ mem.length then .ok ((mem.drop off).take n) else .error .outOfBounds

/-- Block `mem` with `bytes` stored at offset `off`. -/
def memWrite (mem : List Nat) (off : Nat) (bytes : List Nat) : Except Fault (List Nat) :=
  if off + bytes.length ≤ mem.length then
    .ok (mem.take off ++ bytes ++ mem.drop (off + bytes.length))
  else .error .outOfBounds

/-- The call `memcpy(dest + destOff, src + srcOff, n)`; the result is the block
`dest` after the copy. -/
def memcpy (dest : List Nat) (destOff : Nat) (src : List Nat) (srcOff n : Nat) :
    Except Fault (List Nat) :=
  match memRead src srcOff n with
  | .error e => .error e
  | .ok bytes => memWrite dest destOff bytes

/-- A block of `size` bytes as `malloc` returns it: the contents are whatever
`junk` says. -/
def malloc (junk : Nat → Nat) (size : Nat) : List Nat :=
  (List.range size).map (fun i => junk i % 256)

/-! ## Row codec (`main.c` lines 35-45) -/

/-- The function `serializeRow(src, dest)`, where `dest` points at offset
`dest` of the block `mem`; the result is `mem` after the three copies. -/
def serializeRow (src : Row) (mem : List Nat) (dest : Nat) : Except Fault (List Nat) :=
  match memcpy mem (dest + ID_OFFSET) (u32Bytes src.id) 0 ID_SIZE with
  | .error e => .error e
  | .ok mem1 =>
    match memcpy mem1 (dest + USERNAME_OFFSET) src.username 0 USERNAME_SIZE with
    | .error e => .error e
    | .ok mem2 => memcpy mem2 (dest + EMAIL_OFFSET) src.email 0 EMAIL_SIZE

/-- The function `deserializeRow(src, dest)`, where `src` points at offset
`src` of the block `mem`. The three copies overwrite every field of `*dest`
completely, so the row is returned rather than updated in place. -/
def deserializeRow (mem : List Nat) (src : Nat) : Except Fault Row :=
  match memRead mem (src + ID_OFFSET) ID_SIZE with
  | .error e => .error e
  | .ok idBytes =>
    match memRead mem (src + USERNAME_OFFSET) USERNAME_SIZE with
    | .error e => .error e
    | .ok username =>
      match memRead mem (src + EMAIL_OFFSET) EMAIL_SIZE with
      | .error e => .error e
      | .ok email => .ok { id := bytesU32 idBytes, username := username, email := email }

/-! ## Table (`main.c` lines 30-33, 47-79) -/

/-- The struct `Table`: the array `pages` of page pointers (`none` is the null
pointer, `some mem` points to the block `mem`) and the row counter. -/
structure Table where
  pages : List (Option (List Nat))
  num_rows : Nat
deriving DecidableEq

/-- The values of the C type `Table` in a running program: the array has
`TABLE_MAX_PAGES` elements, the counter fits 32 bits, and a page that is
present is a block of `PAGE_SIZE` bytes (the only blocks `rowSlot` stores). -/
def Table.WF (t : Table) : Prop :=
  t.pages.length = TABLE_MAX_PAGES ∧ t.num_rows < UINT32_RANGE ∧
  ∀ page ∈ t.pages, ∀ mem ∈ page, mem.length = PAGE_SIZE

instance (t : Table) : Decidable t.WF :=
  inferInstanceAs (Decidable (_ ∧ _ ∧ _))

/-- The empty table: no row, every page slot null. -/
def emptyTable : Table :=
  { pages := List.replicate TABLE_MAX_PAGES none, num_rows := 0 }

/-- A pointer into a page of a table, the value `page + byteOffset` that
`rowSlot` returns: the number of the page and the byte offset in it. -/
structure Ptr where
  page : Nat
  offset : Nat
deriving DecidableEq

/-- The function `rowSlot(table, rowNum)`: the table after the call and the
pointer returned. Reading `table->pages[pageNum]` outside the array is a
fault; `malloc` is taken to succeed. -/
def rowSlot (junk : Nat → Nat) (table : Table) (rowNum : Nat) : Except Fault (Table × Ptr) :=
  let pageNum := rowNum / ROWS_PER_PAGE
  match table.pages[pageNum]? with
  | none => .error .outOfBounds
  | some page =>
    let table1 : Table :=
      match page with
      | none => { table with pages := table.pages.set pageNum (some (malloc junk PAGE_SIZE)) }
      | some _ => table
    let rowOffset := rowNum % ROWS_PER_PAGE
    let byteOffset := (rowOffset * ROW_SIZE) % UINT32_RANGE
    .ok (table1, { page := pageNum, offset := byteOffset })

/-- The block a pointer returned by `rowSlot` points into. -/
def deref (table : Table) (p : Ptr) : Except Fault (List Nat) :=
  match table.pages[p.page]? with
  | none => .error .outOfBounds
  | some none => .error .nullPointer
  | some (some mem) => .ok mem

/-- The function `newTable()`. The argument is the indeterminate content of the
block that `malloc(sizeof(Table))` returns; the function assigns `num_rows`
and nothing else. -/
def newTable (uninit : Table) : Table :=
  { uninit with num_rows := 0 }

/-- The loop of `freeTable`, from index `i` on. -/
def freeTableLoop : Nat → Table → Nat → Except Fault Table
  | 0, table, i => if i < table.num_rows then .error .outOfFuel else .ok table
  | fuel + 1, table, i =>
    if i < table.num_rows then
      match table.pages[i]? with
      | none => .error .outOfBounds
      | some none => freeTableLoop fuel table ((i + 1) % UINT32_RANGE)
      | some (some _) =>
        freeTableLoop fuel { table with pages := table.pages.set i none } ((i + 1) % UINT32_RANGE)
    else .ok table

/-- The function `freeTable(table)`. -/
def freeTable (table : Table) : Except Fault Table :=
  match freeTableLoop table.num_rows table 0 with
  | .error e => .error e
  | .ok table1 => .ok { table1 with num_rows := 0 }

/-! ## Statements (`main.c` lines 95-114, 178-199) -/

inductive ExecuteResult where
  | EXECUTE_SUCCESS
  | EXECUTE_TABLE_FULL
deriving DecidableEq

inductive StatementType where
  | STATEMENT_INSERT
  | STATEMENT_SELECT
deriving DecidableEq

/-- The struct `Statement`. -/
structure Statement where
  type : StatementType
  row_to_insert : Row
deriving DecidableEq

open ExecuteResult StatementType

/-- The function `executeInsert(statement, table)`: the result code and the
table after the call. -/
def executeInsert (junk : Nat → Nat) (statement : Statement) (table : Table) :
    Except Fault (ExecuteResult × Table) :=
  if table.num_rows ≥ TABLE_MAX_ROWS then .ok (EXECUTE_TABLE_FULL, table)
  else
    match rowSlot junk table table.num_rows with
    | .error e => .error e
    | .ok (table1, dest) =>
      match deref table1 dest with
      | .error e => .error e
      | .ok mem =>
        match serializeRow statement.row_to_insert mem dest.offset with
        | .error e => .error e
        | .ok mem1 =>
          .ok (EXECUTE_SUCCESS,
            { pages := table1.pages.set dest.page (some mem1),
              num_rows := (table1.num_rows + 1) % UINT32_RANGE })

/-- The body of the loop of `executeSelect` up to `printRow`, that is
`deserializeRow(rowSlot(table, i), &row)`: the table after it and the row
read. -/
def readRow (junk : Nat → Nat) (table : Table) (i : Nat) : Except Fault (Table × Row) :=
  match rowSlot junk table i with
  | .error e => .error e
  | .ok (table1, src) =>
    match deref table1 src with
    | .error e => .error e
    | .ok mem =>
      match deserializeRow mem src.offset with
      | .error e => .error e
      | .ok row => .ok (table1, row)

/-- The loop of `executeSelect`, from index `i` on: the table after it and the
rows handed to `printRow`, in order. Iteration `i` allocates with `junk i`. -/
def executeSelectLoop (junk : Nat → Nat → Nat) : Nat → Table → Nat → Except Fault (Table × List Row)
  | 0, table, i => if i < table.num_rows then .error .outOfFuel else .ok (table, [])
  | fuel + 1, table, i =>
    if i < table.num_rows then
      match readRow (junk i) table i with
      | .error e => .error e
      | .ok (table1, row) =>
        match executeSelectLoop junk fuel table1 ((i + 1) % UINT32_RANGE) with
        | .error e => .error e
        | .ok (table2, rows) => .ok (table2, row :: rows)
    else .ok (table, [])

/-- The function `executeSelect(statement, table)`: the result code, the table
after the call and the rows handed to `printRow`, in order. -/
def executeSelect (junk : Nat → Nat → Nat) (_statement : Statement) (table : Table) :
    Except Fault (ExecuteResult × Table × List Row) :=
  match executeSelectLoop junk table.num_rows table 0 with
  | .error e => .error e
  | .ok (table1, rows) => .ok (EXECUTE_SUCCESS, table1, rows)

/-! ## Sequences of calls -/

/-- Consecutive calls of `executeInsert`, one for each element of the list (the
content of the memory that call may allocate, and its statement): the result
codes in order and the table after the last call. -/
def executeInserts : List ((Nat → Nat) × Statement) → Table →
    Except Fault (List ExecuteResult × Table)
  | [], table => .ok ([], table)
  | (junk, statement) :: calls, table =>
    match executeInsert junk statement table with
    | .error e => .error e
    | .ok (r, table1) =>
      match executeInserts calls table1 with
      | .error e => .error e
      | .ok (rs, table2) => .ok (r :: rs, table2)

/-- The tables reachable from the empty table by calls of `executeInsert`. -/
inductive Reachable : Table → Prop where
  | empty : Reachable emptyTable
  | insert {table table1 : Table} (junk : Nat → Nat) (statement : Statement)
      (r : ExecuteResult) :
      Reachable table → executeInsert junk statement table = .ok (r, table1) →
      Reachable table1

/-- Page slot `p` of the table holds a page. -/
def Table.present (t : Table) (p : Nat) : Prop :=
  ∃ mem, t.pages[p]? = some (some mem)

/-- Page slot `p` of the table is null. -/
def Table.absent (t : Table) (p : Nat) : Prop :=
  t.pages[p]? = some none

/-- Invariant of the reachable tables: the table is well formed, the counter is
at most the capacity, and the pages present are those that hold a row. -/
def Table.Inv (t : Table) : Prop :=
  t.WF ∧ t.num_rows ≤ TABLE_MAX_ROWS ∧
  ∀ p, p < TABLE_MAX_PAGES → (t.present p ↔ p * ROWS_PER_PAGE < t.num_rows)

/-- The table holds exactly the rows of the list: slot `i` lies in a present
page and reads back as the `i`-th row. -/
def Table.Stores (t : Table) (rows : List Row) : Prop :=
  t.num_rows = rows.length ∧
  ∀ i row, rows[i]? = some row →
    t.present (i / ROWS_PER_PAGE) ∧ ∀ junk, readRow junk t i = .ok (t, row)

/-- Number of page slots of the table that hold a page. -/
def Table.allocated (t : Table) : Nat :=
  t.pages.countP Option.isSome

/-- The loop of `freeTable` from index `i` on, reduced to the indexes `i` of the
accesses `table->pages[i]` it makes, in order, up to and including the first
one outside the array. -/
def freeTableLoopIndexes : Nat → Table → Nat → List Nat
  | 0, _, _ => []
  | fuel + 1, table, i =>
    if i < table.num_rows then
      match table.pages[i]? with
      | none => [i]
      | some none => i :: freeTableLoopIndexes fuel table ((i + 1) % UINT32_RANGE)
      | some (some _) =>
        i :: freeTableLoopIndexes fuel { table with pages := table.pages.set i none }
          ((i + 1) % UINT32_RANGE)
    else []

/-- The indexes of the accesses `table->pages[i]` that `freeTable(table)`
makes. -/
def freeTableIndexes (table : Table) : List Nat :=
  freeTableLoopIndexes table.num_rows table 0

/-! ## Concrete inputs -/

/-- Memory that reads as zero. -/
def zeroJunk : Nat → Nat := fun _ => 0

/-- The row `1 alice a@x.com`, the strings zero padded. -/
def aliceRow : Row :=
  { id := 1,
    username := [97, 108, 105, 99, 101] ++ List.replicate 27 0,
    email := [97, 64, 120, 46, 99, 111, 109] ++ List.replicate 248 0 }

/-- The row `2 bob b@x.com`, the strings zero padded. -/
def bobRow : Row :=
  { id := 2,
    username := [98, 111, 98] ++ List.replicate 29 0,
    email := [98, 64, 120, 46, 99, 111, 109] ++ List.replicate 248 0 }

def insertAlice : Statement := { type := STATEMENT_INSERT, row_to_insert := aliceRow }
def insertBob : Statement := { type := STATEMENT_INSERT, row_to_insert := bobRow }
def selectAll : Statement := { type := STATEMENT_SELECT, row_to_insert := aliceRow }

/-- The table of one row that `insert 1 alice a@x.com` makes of the empty table
when the new page reads as zero: the row in slot 0 of page 0, no other page. -/
def aliceTable : Table :=
  { pages := emptyTable.pages.set 0 (some (u32Bytes aliceRow.id ++ aliceRow.username ++
        aliceRow.email ++ List.replicate (PAGE_SIZE - ROW_SIZE) 0)),
    num_rows := 1 }

/-- A block for a `Table` as `malloc` may return it: memory of an earlier table,
every page slot still holding its old pointer. -/
def staleTable : Table :=
  { pages := List.replicate TABLE_MAX_PAGES (some (malloc zeroJunk PAGE_SIZE)), num_rows := 3 }

/-! ## Memory lemmas -/

theorem memWrite_length {mem bytes mem1 : List Nat} {off : Nat}
    (h : memWrite mem off bytes = .ok mem1) : mem1.length = mem.length := by
  unfold memWrite at h
  split at h
  · cases h
    simp only [List.length_append, List.length_take, List.length_drop]
    omega
  · cases h

theorem memRead_memWrite_same {mem bytes mem1 : List Nat} {off : Nat}
    (h : memWrite mem off bytes = .ok mem1) : memRead mem1 off bytes.length = .ok bytes := by
  have hl := memWrite_length h
  unfold memWrite at h
  split at h
  · rename_i hb
    cases h
    unfold memRead
    rw [if_pos (by rw [hl]; exact hb)]
    congr 1
    have h1 : (List.take off mem).length = off := by
      rw [List.length_take]; omega
    rw [List.append_assoc, List.drop_left' h1, List.take_left' rfl]
  · cases h

theorem memRead_memWrite_disjoint {mem bytes mem1 : List Nat} {off o n : Nat}
    (h : memWrite mem off bytes = .ok mem1) (hd : o + n ≤ off ∨ off + bytes.length ≤ o) :
    memRead mem1 o n = memRead mem o n := by
  have hl := memWrite_length h
  unfold memWrite at h
  split at h
  · rename_i hb
    cases h
    unfold memRead
    rw [hl]
    split
    · rename_i hn
      congr 1
      apply List.ext_getElem?
      intro i
      simp only [List.getElem?_take, List.getElem?_drop, List.getElem?_append, List.length_take, List.length_append]
      have hm : off ⊓ mem.length = off := Nat.min_eq_left (by omega)
      rw [hm]
      by_cases hi : i < n
      · simp only [hi, if_true]
        rcases hd with hd | hd
        · rw [if_pos (by omega), if_pos (by omega), if_pos (by omega)]
        · rw [if_neg (by omega)]
          congr 1
          omega
      · simp only [hi, if_false]
    · rfl
  · cases h

theorem memWrite_ok {mem bytes : List Nat} {off : Nat} (h : off + bytes.length ≤ mem.length) :
    ∃ mem1, memWrite mem off bytes = .ok mem1 := by
  unfold memWrite
  rw [if_pos h]
  exact ⟨_, rfl⟩

theorem memRead_whole (src : List Nat) {n : Nat} (h : src.length = n) :
    memRead src 0 n = .ok src := by
  unfold memRead
  subst h
  rw [if_pos (by omega), List.drop_zero, List.take_length]

theorem memcpy_whole (dest : List Nat) (off : Nat) (src : List Nat) {n : Nat}
    (h : src.length = n) : memcpy dest off src 0 n = memWrite dest off src := by
  unfold memcpy
  rw [memRead_whole src h]

theorem u32Bytes_length (x : Nat) : (u32Bytes x).length = 4 := rfl

theorem bytesU32_u32Bytes {x : Nat} (h : x < UINT32_RANGE) : bytesU32 (u32Bytes x) = x := by
  unfold UINT32_RANGE at h
  simp only [bytesU32, u32Bytes, List.foldr]
  omega

/-! ## Codec lemmas -/

theorem serializeRow_reads {row : Row} {mem : List Nat} {dest : Nat}
    (hrow : row.WF) (hb : dest + ROW_SIZE ≤ mem.length) :
    ∃ mem1, serializeRow row mem dest = .ok mem1 ∧ mem1.length = mem.length ∧
      memRead mem1 (dest + ID_OFFSET) ID_SIZE = .ok (u32Bytes row.id) ∧
      memRead mem1 (dest + USERNAME_OFFSET) USERNAME_SIZE = .ok row.username ∧
      memRead mem1 (dest + EMAIL_OFFSET) EMAIL_SIZE = .ok row.email ∧
      ∀ o n, (o + n ≤ dest ∨ dest + ROW_SIZE ≤ o) → memRead mem1 o n = memRead mem o n := by
  obtain ⟨_, hu, he, _, _⟩ := hrow
  have hi := u32Bytes_length row.id
  simp only [ROW_SIZE, ID_OFFSET, ID_SIZE, USERNAME_OFFSET, USERNAME_SIZE, EMAIL_OFFSET,
    EMAIL_SIZE, COLUMN_USERNAME_SIZE, COLUMN_EMAIL_SIZE] at *
  obtain ⟨m1, h1⟩ := @memWrite_ok mem (u32Bytes row.id) (dest + 0)
    (by omega)
  have l1 := memWrite_length h1
  obtain ⟨m2, h2⟩ := @memWrite_ok m1 row.username (dest + (0 + 4))
    (by omega)
  have l2 := memWrite_length h2
  obtain ⟨m3, h3⟩ := @memWrite_ok m2 row.email (dest + (0 + 4 + 32))
    (by omega)
  have l3 := memWrite_length h3
  refine ⟨m3, ?_, by omega, ?_, ?_, ?_, ?_⟩
  · unfold serializeRow
    simp only [ID_OFFSET, ID_SIZE, USERNAME_OFFSET, USERNAME_SIZE, EMAIL_OFFSET,
      EMAIL_SIZE, COLUMN_USERNAME_SIZE, COLUMN_EMAIL_SIZE]
    rw [memcpy_whole mem _ _ hi, h1]
    simp only
    rw [memcpy_whole m1 _ _ hu, h2]
    simp only
    rw [memcpy_whole m2 _ _ he, h3]
  · rw [memRead_memWrite_disjoint h3 (Or.inl (by omega)),
      memRead_memWrite_disjoint h2 (Or.inl (by omega))]
    have := memRead_memWrite_same h1
    rwa [hi] at this
  · rw [memRead_memWrite_disjoint h3 (Or.inl (by omega))]
    have := memRead_memWrite_same h2
    rwa [hu] at this
  · have := memRead_memWrite_same h3
    rwa [he] at this
  · intro o n hd
    rw [memRead_memWrite_disjoint h3 (by omega), memRead_memWrite_disjoint h2 (by omega),
      memRead_memWrite_disjoint h1 (by omega)]

theorem deserializeRow_congr {mem mem1 : List Nat} {src : Nat}
    (h : ∀ o n, (src ≤ o ∧ o + n ≤ src + ROW_SIZE) → memRead mem1 o n = memRead mem o n) :
    deserializeRow mem1 src = deserializeRow mem src := by
  unfold deserializeRow
  simp only [ROW_SIZE, ID_OFFSET, ID_SIZE, USERNAME_OFFSET, USERNAME_SIZE, EMAIL_OFFSET,
    EMAIL_SIZE, COLUMN_USERNAME_SIZE, COLUMN_EMAIL_SIZE] at *
  rw [h _ _ ⟨by omega, by omega⟩, h (src + (0 + 4)) 32 ⟨by omega, by omega⟩,
    h (src + (0 + 4 + 32)) 255 ⟨by omega, by omega⟩]

theorem deserializeRow_serializeRow {row : Row} {mem : List Nat} {dest : Nat}
    (hrow : row.WF) (hb : dest + ROW_SIZE ≤ mem.length) :
    ∃ mem1, serializeRow row mem dest = .ok mem1 ∧ mem1.length = mem.length ∧
      deserializeRow mem1 dest = .ok row ∧
      ∀ src, (src + ROW_SIZE ≤ dest ∨ dest + ROW_SIZE ≤ src) →
        deserializeRow mem1 src = deserializeRow mem src := by
  obtain ⟨mem1, hs, hl, hid, hu, he, hframe⟩ := serializeRow_reads hrow hb
  refine ⟨mem1, hs, hl, ?_, ?_⟩
  · unfold deserializeRow
    rw [hid, hu, he]
    simp only
    rw [bytesU32_u32Bytes hrow.1]
  · intro src hsrc
    apply deserializeRow_congr
    intro o n hon
    apply hframe
    omega

/-! ## Slot resolver lemmas -/

theorem ROW_SIZE_eq : ROW_SIZE = 291 := rfl
theorem ROWS_PER_PAGE_eq : ROWS_PER_PAGE = 14 := rfl
theorem TABLE_MAX_ROWS_eq : TABLE_MAX_ROWS = 1400 := rfl
theorem TABLE_MAX_PAGES_eq : TABLE_MAX_PAGES = 100 := rfl
theorem PAGE_SIZE_eq : PAGE_SIZE = 4096 := rfl
theorem UINT32_RANGE_eq : UINT32_RANGE = 4294967296 := rfl

theorem byteOffset_eq (rowNum : Nat) :
    (rowNum % ROWS_PER_PAGE * ROW_SIZE) % UINT32_RANGE = rowNum % ROWS_PER_PAGE * ROW_SIZE := by
  rw [ROWS_PER_PAGE_eq, ROW_SIZE_eq, UINT32_RANGE_eq]
  omega

theorem byteOffset_bound (rowNum : Nat) :
    rowNum % ROWS_PER_PAGE * ROW_SIZE + ROW_SIZE ≤ PAGE_SIZE := by
  rw [ROWS_PER_PAGE_eq, ROW_SIZE_eq, PAGE_SIZE_eq]
  omega

theorem malloc_length (junk : Nat → Nat) (size : Nat) : (malloc junk size).length = size := by
  simp [malloc]

theorem rowSlot_outOfBounds (junk : Nat → Nat) (t : Table) (i : Nat)
    (h : t.pages.length ≤ i / ROWS_PER_PAGE) : rowSlot junk t i = .error .outOfBounds := by
  unfold rowSlot
  simp only
  rw [List.getElem?_eq_none h]

theorem rowSlot_present (junk : Nat → Nat) {t : Table} {i : Nat} {mem : List Nat}
    (h : t.pages[i / ROWS_PER_PAGE]? = some (some mem)) :
    rowSlot junk t i = .ok (t, { page := i / ROWS_PER_PAGE, offset := i % ROWS_PER_PAGE * ROW_SIZE }) := by
  unfold rowSlot
  simp only
  rw [h, byteOffset_eq]

theorem rowSlot_absent (junk : Nat → Nat) {t : Table} {i : Nat}
    (h : t.pages[i / ROWS_PER_PAGE]? = some none) :
    rowSlot junk t i = .ok
      ({ t with pages := t.pages.set (i / ROWS_PER_PAGE) (some (malloc junk PAGE_SIZE)) },
        { page := i / ROWS_PER_PAGE, offset := i % ROWS_PER_PAGE * ROW_SIZE }) := by
  unfold rowSlot
  simp only
  rw [h, byteOffset_eq]

theorem deserializeRow_ok {mem : List Nat} {src : Nat} (h : src + ROW_SIZE ≤ mem.length) :
    ∃ row, deserializeRow mem src = .ok row := by
  unfold deserializeRow memRead
  simp only [ROW_SIZE, ID_OFFSET, ID_SIZE, USERNAME_OFFSET, USERNAME_SIZE, EMAIL_OFFSET,
    EMAIL_SIZE, COLUMN_USERNAME_SIZE, COLUMN_EMAIL_SIZE] at *
  rw [if_pos (by omega), if_pos (by omega), if_pos (by omega)]
  exact ⟨_, rfl⟩

theorem serializeRow_length {row : Row} {mem mem1 : List Nat} {dest : Nat}
    (h : serializeRow row mem dest = .ok mem1) : mem1.length = mem.length := by
  have key : ∀ {d : List Nat} {o : Nat} {s : List Nat} {so n : Nat} {d1 : List Nat},
      memcpy d o s so n = .ok d1 → d1.length = d.length := by
    intro d o s so n d1 hc
    unfold memcpy at hc
    split at hc
    · cases hc
    · exact memWrite_length hc
  unfold serializeRow at h
  split at h
  · cases h
  · rename_i m1 h1
    split at h
    · cases h
    · rename_i m2 h2
      rw [key h, key h2, key h1]

theorem Table.WF.page_length {t : Table} (hwf : t.WF) {p : Nat} {mem : List Nat}
    (h : t.pages[p]? = some (some mem)) : mem.length = PAGE_SIZE :=
  hwf.2.2 (some mem) (List.getElem?_mem h) mem rfl

theorem Table.WF.slot {t : Table} (hwf : t.WF) {p : Nat} (hp : p < TABLE_MAX_PAGES) :
    t.absent p ∨ t.present p := by
  have hl : p < t.pages.length := by rw [hwf.1]; exact hp
  unfold Table.absent Table.present
  rw [List.getElem?_eq_getElem hl]
  cases t.pages[p] with
  | none => exact Or.inl rfl
  | some mem => exact Or.inr ⟨mem, rfl⟩

theorem readRow_present {t : Table} (hwf : t.WF) {i : Nat} {mem : List Nat}
    (h : t.pages[i / ROWS_PER_PAGE]? = some (some mem)) :
    ∃ row, deserializeRow mem (i % ROWS_PER_PAGE * ROW_SIZE) = .ok row ∧
      ∀ junk, readRow junk t i = .ok (t, row) := by
  have hlen := hwf.page_length h
  obtain ⟨row, hrow⟩ := @deserializeRow_ok mem (i % ROWS_PER_PAGE * ROW_SIZE)
    (by rw [hlen]; exact byteOffset_bound i)
  refine ⟨row, hrow, fun junk => ?_⟩
  unfold readRow
  rw [rowSlot_present junk h]
  simp only [deref, h, hrow]

/-! ## Lemmas on `executeInsert` -/

theorem executeInsert_full (junk : Nat → Nat) (s : Statement) {t : Table}
    (h : TABLE_MAX_ROWS ≤ t.num_rows) : executeInsert junk s t = .ok (EXECUTE_TABLE_FULL, t) := by
  unfold executeInsert
  rw [if_pos h]

/-- Below the capacity, `executeInsert` serializes the row into the page of
index `num_rows`, which is the page already there or a fresh one. -/
theorem executeInsert_eq (junk : Nat → Nat) (s : Statement) {t : Table} (hwf : t.WF)
    (h : t.num_rows < TABLE_MAX_ROWS) :
    ∃ mem, mem.length = PAGE_SIZE ∧
      (t.pages[t.num_rows / ROWS_PER_PAGE]? = some (some mem) ∨
        (t.pages[t.num_rows / ROWS_PER_PAGE]? = some none ∧ mem = malloc junk PAGE_SIZE)) ∧
      executeInsert junk s t =
        match serializeRow s.row_to_insert mem (t.num_rows % ROWS_PER_PAGE * ROW_SIZE) with
        | .error e => .error e
        | .ok mem1 => .ok (EXECUTE_SUCCESS,
            { pages := t.pages.set (t.num_rows / ROWS_PER_PAGE) (some mem1),
              num_rows := t.num_rows + 1 }) := by
  have hp : t.num_rows / ROWS_PER_PAGE < TABLE_MAX_PAGES := by
    rw [TABLE_MAX_ROWS_eq] at h
    rw [ROWS_PER_PAGE_eq, TABLE_MAX_PAGES_eq]
    omega
  have hl : t.num_rows / ROWS_PER_PAGE < t.pages.length := by rw [hwf.1]; exact hp
  have hmod : (t.num_rows + 1) % UINT32_RANGE = t.num_rows + 1 := by
    rw [TABLE_MAX_ROWS_eq] at h
    rw [UINT32_RANGE_eq]
    omega
  rcases hwf.slot hp with ha | ⟨mem, hm⟩
  · refine ⟨malloc junk PAGE_SIZE, malloc_length _ _, Or.inr ⟨ha, rfl⟩, ?_⟩
    unfold executeInsert
    rw [if_neg (by omega), rowSlot_absent junk ha]
    simp only [deref, List.getElem?_set_self hl, List.set_set, hmod]
  · refine ⟨mem, hwf.page_length hm, Or.inl hm, ?_⟩
    unfold executeInsert
    rw [if_neg (by omega), rowSlot_present junk hm]
    simp only [deref, hm, hmod]

/-- What a returning call of `executeInsert` does to the table. -/
theorem executeInsert_ok {junk : Nat → Nat} {s : Statement} {t t1 : Table} {r : ExecuteResult}
    (hwf : t.WF) (h : executeInsert junk s t = .ok (r, t1)) :
    (r = EXECUTE_TABLE_FULL ∧ t1 = t ∧ TABLE_MAX_ROWS ≤ t.num_rows) ∨
    (r = EXECUTE_SUCCESS ∧ t.num_rows < TABLE_MAX_ROWS ∧ t1.num_rows = t.num_rows + 1 ∧
      t1.WF ∧ t1.present (t.num_rows / ROWS_PER_PAGE) ∧
      ∀ p, p ≠ t.num_rows / ROWS_PER_PAGE → t1.pages[p]? = t.pages[p]?) := by
  by_cases hn : TABLE_MAX_ROWS ≤ t.num_rows
  · rw [executeInsert_full junk s hn] at h
    cases h
    exact Or.inl ⟨rfl, rfl, hn⟩
  · right
    have hn1 : t.num_rows < TABLE_MAX_ROWS := by omega
    obtain ⟨mem, hlen, _, heq⟩ := executeInsert_eq junk s hwf hn1
    rw [heq] at h
    split at h
    · cases h
    · rename_i mem1 hs
      cases h
      have hl1 := serializeRow_length hs
      have hp : t.num_rows / ROWS_PER_PAGE < t.pages.length := by
        rw [hwf.1, ROWS_PER_PAGE_eq, TABLE_MAX_PAGES_eq]
        rw [TABLE_MAX_ROWS_eq] at hn1
        omega
      refine ⟨rfl, hn1, rfl, ⟨?_, ?_, ?_⟩, ⟨mem1, ?_⟩, ?_⟩
      · simp only [List.length_set]
        exact hwf.1
      · rw [TABLE_MAX_ROWS_eq] at hn1
        simp only [UINT32_RANGE_eq]
        omega
      · intro page hpage m hm
        rcases List.mem_or_eq_of_mem_set hpage with hin | heq1
        · exact hwf.2.2 page hin m hm
        · subst heq1
          cases hm
          rw [hl1, hlen]
      · simp only [List.getElem?_set_self hp]
      · intro p hne
        simp only [List.getElem?_set_ne (Ne.symm hne)]

/-- A call of `executeInsert` below the capacity, with a row of the C type:
the new row is read back from slot `num_rows`, rows in other slots of present
pages read as before. -/
theorem executeInsert_success (junk : Nat → Nat) (s : Statement) {t : Table} (hwf : t.WF)
    (hrow : s.row_to_insert.WF) (h : t.num_rows < TABLE_MAX_ROWS) :
    ∃ t1, executeInsert junk s t = .ok (EXECUTE_SUCCESS, t1) ∧ t1.WF ∧
      t1.num_rows = t.num_rows + 1 ∧
      (∀ j, readRow j t1 t.num_rows = .ok (t1, s.row_to_insert)) ∧
      (∀ i, i ≠ t.num_rows → t.present (i / ROWS_PER_PAGE) →
        ∃ row, (∀ j, readRow j t i = .ok (t, row)) ∧ (∀ j, readRow j t1 i = .ok (t1, row))) := by
  obtain ⟨mem, hlen, hcase, heq⟩ := executeInsert_eq junk s hwf h
  obtain ⟨mem1, hs, _, hback, hframe⟩ := @deserializeRow_serializeRow s.row_to_insert
    mem (t.num_rows % ROWS_PER_PAGE * ROW_SIZE) hrow
    (by rw [hlen]; exact byteOffset_bound _)
  rw [hs] at heq
  simp only at heq
  rcases executeInsert_ok hwf heq with ⟨hc, _⟩ | ⟨_, _, hnum, hwf1, _, hother⟩
  · cases hc
  have hp : t.num_rows / ROWS_PER_PAGE < t.pages.length := by
    rw [hwf.1, ROWS_PER_PAGE_eq, TABLE_MAX_PAGES_eq]
    rw [TABLE_MAX_ROWS_eq] at h
    omega
  refine ⟨_, heq, hwf1, hnum, ?_, ?_⟩
  · obtain ⟨row, hrow1, hread⟩ := @readRow_present _ hwf1 t.num_rows mem1
      (by simp only [List.getElem?_set_self hp])
    rw [hback] at hrow1
    cases hrow1
    exact hread
  · intro i hi ⟨m, hm⟩
    obtain ⟨row, hrow0, hread0⟩ := readRow_present hwf hm
    refine ⟨row, hread0, ?_⟩
    by_cases hpage : i / ROWS_PER_PAGE = t.num_rows / ROWS_PER_PAGE
    · have hmem : m = mem := by
        rw [hpage] at hm
        rcases hcase with hc | ⟨hc, _⟩
        · rw [hc] at hm
          cases hm
          rfl
        · rw [hc] at hm
          cases hm
      subst hmem
      obtain ⟨row1, hrow1, hread1⟩ := @readRow_present _ hwf1 i mem1
        (by rw [hpage]; simp only [List.getElem?_set_self hp])
      rw [hframe, hrow0] at hrow1
      · cases hrow1
        exact hread1
      · rw [ROWS_PER_PAGE_eq] at hpage ⊢
        rw [ROW_SIZE_eq]
        omega
    · obtain ⟨row1, hrow1, hread1⟩ := @readRow_present _ hwf1 i m
        (by rw [hother _ hpage]; exact hm)
      rw [hrow0] at hrow1
      cases hrow1
      exact hread1

/-! ## The invariant of reachable tables -/

theorem emptyTable_WF : emptyTable.WF := by
  refine ⟨List.length_replicate _ _, by decide, ?_⟩
  intro page hpage mem hmem
  rw [emptyTable, List.mem_replicate] at hpage
  rw [hpage.2] at hmem
  cases hmem

theorem emptyTable_absent {p : Nat} (hp : p < TABLE_MAX_PAGES) : emptyTable.absent p := by
  unfold Table.absent emptyTable
  rw [List.getElem?_replicate, if_pos hp]

theorem emptyTable_Inv : emptyTable.Inv := by
  refine ⟨emptyTable_WF, Nat.zero_le _, ?_⟩
  intro p hp
  constructor
  · rintro ⟨mem, hm⟩
    rw [emptyTable_absent hp] at hm
    cases hm
  · intro h
    exact absurd h (Nat.not_lt_zero _)

theorem executeInsert_Inv {junk : Nat → Nat} {s : Statement} {t t1 : Table} {r : ExecuteResult}
    (hinv : t.Inv) (h : executeInsert junk s t = .ok (r, t1)) : t1.Inv := by
  obtain ⟨hwf, hle, hpages⟩ := hinv
  rcases executeInsert_ok hwf h with ⟨_, heq, _⟩ | ⟨_, hlt, hnum, hwf1, hpres, hother⟩
  · rw [heq]
    exact ⟨hwf, hle, hpages⟩
  · refine ⟨hwf1, by omega, ?_⟩
    intro p hp
    by_cases hpn : p = t.num_rows / ROWS_PER_PAGE
    · subst hpn
      rw [hnum]
      rw [ROWS_PER_PAGE_eq]
      constructor
      · intro _
        omega
      · intro _
        exact hpres
    · have h1 : t1.present p ↔ t.present p := by
        unfold Table.present
        rw [hother p hpn]
      rw [h1, hpages p hp, hnum]
      rw [ROWS_PER_PAGE_eq] at hpn ⊢
      omega

theorem Reachable.toInv {t : Table} (h : Reachable t) : t.Inv := by
  induction h with
  | empty => exact emptyTable_Inv
  | insert junk s r _ hstep ih => exact executeInsert_Inv ih hstep

theorem Table.Inv.present_of_lt {t : Table} (hinv : t.Inv) {i : Nat} (hi : i < t.num_rows) :
    t.present (i / ROWS_PER_PAGE) := by
  obtain ⟨_, hle, hpages⟩ := hinv
  rw [TABLE_MAX_ROWS_eq] at hle
  rw [hpages (i / ROWS_PER_PAGE) (by rw [ROWS_PER_PAGE_eq, TABLE_MAX_PAGES_eq]; omega)]
  rw [ROWS_PER_PAGE_eq]
  omega

/-! ## Lemmas on `executeSelect` -/

theorem executeSelectLoop_Stores (junk : Nat → Nat → Nat) {t : Table} {rows : List Row}
    (hlt : t.num_rows < UINT32_RANGE) (hst : t.Stores rows) :
    ∀ fuel i, i ≤ t.num_rows → t.num_rows - i ≤ fuel →
      executeSelectLoop junk fuel t i = .ok (t, rows.drop i) := by
  obtain ⟨hnum, hrows⟩ := hst
  intro fuel
  induction fuel with
  | zero =>
    intro i hi hf
    unfold executeSelectLoop
    rw [if_neg (by omega), List.drop_eq_nil_of_le (by omega)]
  | succ fuel ih =>
    intro i hi hf
    unfold executeSelectLoop
    by_cases hlt1 : i < t.num_rows
    · have hil : i < rows.length := by omega
      have hmod : (i + 1) % UINT32_RANGE = i + 1 := Nat.mod_eq_of_lt (by omega)
      rw [if_pos hlt1, (hrows i rows[i] (List.getElem?_eq_getElem hil)).2 (junk i)]
      simp only
      rw [hmod, ih (i + 1) (by omega) (by omega)]
      simp only
      rw [← List.drop_eq_getElem_cons hil]
    · rw [if_neg hlt1, List.drop_eq_nil_of_le (by omega)]

theorem executeSelect_Stores (junk : Nat → Nat → Nat) (s : Statement) {t : Table}
    {rows : List Row} (hlt : t.num_rows < UINT32_RANGE) (hst : t.Stores rows) :
    executeSelect junk s t = .ok (EXECUTE_SUCCESS, t, rows) := by
  unfold executeSelect
  rw [executeSelectLoop_Stores junk hlt hst t.num_rows 0 (Nat.zero_le _) (by omega)]
  simp only [List.drop_zero]

/-- Rows can be read from every slot below `num_rows` as soon as their pages
are present. -/
theorem Table.WF.exists_Stores {t : Table} (hwf : t.WF)
    (hp : ∀ i, i < t.num_rows → t.present (i / ROWS_PER_PAGE)) : ∃ rows, t.Stores rows := by
  have key : ∀ k, k ≤ t.num_rows → ∃ rows : List Row, rows.length = k ∧
      ∀ i row, rows[i]? = some row →
        t.present (i / ROWS_PER_PAGE) ∧ ∀ junk, readRow junk t i = .ok (t, row) := by
    intro k
    induction k with
    | zero =>
      intro _
      exact ⟨[], rfl, fun i row h => by simp at h⟩
    | succ k ih =>
      intro hk
      obtain ⟨rows, hlen, hrows⟩ := ih (by omega)
      obtain ⟨mem, hm⟩ := hp k (by omega)
      obtain ⟨row, _, hread⟩ := readRow_present hwf hm
      refine ⟨rows ++ [row], by simp [hlen], ?_⟩
      intro i r hir
      by_cases hi : i < rows.length
      · rw [List.getElem?_append_left hi] at hir
        exact hrows i r hir
      · have hik : i = k := by
          have := (List.getElem?_eq_some_iff.mp hir).1
          simp only [List.length_append, List.length_singleton] at this
          omega
        subst hik
        rw [List.getElem?_append_right (by omega), hlen] at hir
        simp only [Nat.sub_self, List.getElem?_cons_zero, Option.some.injEq] at hir
        subst hir
        exact ⟨⟨mem, hm⟩, hread⟩
  obtain ⟨rows, hlen, hrows⟩ := key t.num_rows (Nat.le_refl _)
  exact ⟨rows, hlen.symm, hrows⟩

/-! ## Lemmas on sequences of inserts -/

theorem emptyTable_Stores : emptyTable.Stores [] :=
  ⟨rfl, fun i row h => by simp at h⟩

theorem Table.Stores.insert (junk : Nat → Nat) (s : Statement) {t : Table} {rows : List Row}
    (hwf : t.WF) (hst : t.Stores rows) (hrow : s.row_to_insert.WF)
    (h : t.num_rows < TABLE_MAX_ROWS) :
    ∃ t1, executeInsert junk s t = .ok (EXECUTE_SUCCESS, t1) ∧ t1.WF ∧
      t1.Stores (rows ++ [s.row_to_insert]) := by
  obtain ⟨t1, heq, hwf1, hnum, hnew, hold⟩ := executeInsert_success junk s hwf hrow h
  obtain ⟨hlen, hrows⟩ := hst
  rcases executeInsert_ok hwf heq with ⟨hc, _⟩ | ⟨_, _, _, _, hpres, hother⟩
  · cases hc
  refine ⟨t1, heq, hwf1, by simp only [List.length_append, List.length_singleton]; omega, ?_⟩
  intro i row hir
  by_cases hi : i < rows.length
  · rw [List.getElem?_append_left hi] at hir
    obtain ⟨hp, hread⟩ := hrows i row hir
    obtain ⟨row1, h0, h1⟩ := hold i (by omega) hp
    have hrr : row1 = row := by
      have := (h0 (fun _ => 0)).symm.trans (hread (fun _ => 0))
      cases this
      rfl
    subst hrr
    refine ⟨?_, h1⟩
    by_cases hpage : i / ROWS_PER_PAGE = t.num_rows / ROWS_PER_PAGE
    · rw [hpage]
      exact hpres
    · unfold Table.present
      rw [hother _ hpage]
      exact hp
  · have hik : i = rows.length := by
      have := (List.getElem?_eq_some_iff.mp hir).1
      simp only [List.length_append, List.length_singleton] at this
      omega
    subst hik
    rw [List.getElem?_append_right (by omega)] at hir
    simp only [Nat.sub_self, List.getElem?_cons_zero, Option.some.injEq] at hir
    subst hir
    rw [← hlen]
    exact ⟨hpres, hnew⟩

theorem executeInserts_success :
    ∀ (calls : List ((Nat → Nat) × Statement)) (t : Table) (rows : List Row),
      t.WF → t.Stores rows → (∀ c ∈ calls, c.2.row_to_insert.WF) →
      t.num_rows + calls.length ≤ TABLE_MAX_ROWS →
      ∃ t1, executeInserts calls t = .ok (List.replicate calls.length EXECUTE_SUCCESS, t1) ∧
        t1.WF ∧ t1.Stores (rows ++ calls.map (fun c => c.2.row_to_insert)) := by
  intro calls
  induction calls with
  | nil =>
    intro t rows hwf hst _ _
    exact ⟨t, rfl, hwf, by simpa using hst⟩
  | cons c calls ih =>
    intro t rows hwf hst hrows hn
    obtain ⟨junk, s⟩ := c
    simp only [List.length_cons] at hn
    obtain ⟨t1, heq, hwf1, hst1⟩ := hst.insert junk s hwf
      (hrows (junk, s) (List.mem_cons_self _ _)) (by omega)
    have hnum1 : t1.num_rows = t.num_rows + 1 := by
      rw [hst1.1, hst.1]
      simp
    obtain ⟨t2, heq2, hwf2, hst2⟩ := ih t1 (rows ++ [s.row_to_insert]) hwf1 hst1
      (fun c hc => hrows c (List.mem_cons_of_mem _ hc)) (by omega)
    refine ⟨t2, ?_, hwf2, by simpa using hst2⟩
    unfold executeInserts
    rw [heq]
    simp only
    rw [heq2]
    rfl

theorem executeInserts_Reachable :
    ∀ (calls : List ((Nat → Nat) × Statement)) (t t1 : Table) (rs : List ExecuteResult),
      Reachable t → executeInserts calls t = .ok (rs, t1) → Reachable t1 := by
  intro calls
  induction calls with
  | nil =>
    intro t t1 rs hr h
    cases h
    exact hr
  | cons c calls ih =>
    intro t t1 rs hr h
    obtain ⟨junk, s⟩ := c
    unfold executeInserts at h
    split at h
    · cases h
    · rename_i r t2 hstep
      split at h
      · cases h
      · rename_i rs2 t3 hrest
        cases h
        exact ih t2 _ _ (Reachable.insert junk s r hr hstep) hrest

/-! ## Lemmas on `freeTable` -/

/-- With more rows than page slots the loop of `freeTable` runs off the end of
the array `pages`. -/
theorem freeTableLoop_outOfBounds :
    ∀ (fuel : Nat) (t : Table) (i : Nat), t.pages.length = TABLE_MAX_PAGES →
      TABLE_MAX_PAGES < t.num_rows → i ≤ TABLE_MAX_PAGES → TABLE_MAX_PAGES - i < fuel →
      freeTableLoop fuel t i = .error .outOfBounds := by
  intro fuel
  induction fuel with
  | zero =>
    intro t i _ _ _ hf
    exact absurd hf (Nat.not_lt_zero _)
  | succ fuel ih =>
    intro t i hlen hn hi hf
    unfold freeTableLoop
    rw [if_pos (by omega)]
    by_cases hi1 : i = TABLE_MAX_PAGES
    · rw [List.getElem?_eq_none (by omega)]
    · have hil : i < t.pages.length := by omega
      have hmod : (i + 1) % UINT32_RANGE = i + 1 :=
        Nat.mod_eq_of_lt (by rw [TABLE_MAX_PAGES_eq] at hi; rw [UINT32_RANGE_eq]; omega)
      rw [List.getElem?_eq_getElem hil, hmod]
      cases t.pages[i] with
      | none => exact ih t (i + 1) hlen hn (by omega) (by omega)
      | some mem =>
        exact ih _ (i + 1) (by simp only [List.length_set]; exact hlen) hn (by omega) (by omega)

/-- With at most as many rows as page slots the loop of `freeTable` clears the
slots from `i` up to `num_rows` and no other. -/
theorem freeTableLoop_ok :
    ∀ (fuel : Nat) (t : Table) (i : Nat), t.pages.length = TABLE_MAX_PAGES →
      t.num_rows ≤ TABLE_MAX_PAGES → i ≤ t.num_rows → t.num_rows - i ≤ fuel →
      ∃ t1, freeTableLoop fuel t i = .ok t1 ∧ t1.num_rows = t.num_rows ∧
        t1.pages.length = t.pages.length ∧
        ∀ p, t1.pages[p]? = if i ≤ p ∧ p < t.num_rows then some none else t.pages[p]? := by
  intro fuel
  induction fuel with
  | zero =>
    intro t i _ _ hi hf
    refine ⟨t, ?_, rfl, rfl, ?_⟩
    · unfold freeTableLoop
      rw [if_neg (by omega)]
    · intro p
      rw [if_neg (by omega)]
  | succ fuel ih =>
    intro t i hlen hn hi hf
    unfold freeTableLoop
    by_cases hlt : i < t.num_rows
    · have hil : i < t.pages.length := by omega
      have hmod : (i + 1) % UINT32_RANGE = i + 1 :=
        Nat.mod_eq_of_lt (by rw [TABLE_MAX_PAGES_eq] at hn; rw [UINT32_RANGE_eq]; omega)
      rw [if_pos hlt, hmod]
      cases hpi : t.pages[i]? with
      | none =>
        rw [List.getElem?_eq_none_iff] at hpi
        omega
      | some page =>
        cases page with
        | none =>
          obtain ⟨t1, heq, hnum, hlen1, hpages⟩ := ih t (i + 1) hlen hn (by omega) (by omega)
          refine ⟨t1, heq, hnum, hlen1, ?_⟩
          intro p
          rw [hpages p]
          by_cases hpi1 : p = i
          · subst hpi1
            rw [if_neg (by omega), if_pos ⟨Nat.le_refl _, hlt⟩, hpi]
          · by_cases hc : i + 1 ≤ p ∧ p < t.num_rows
            · rw [if_pos hc, if_pos ⟨by omega, hc.2⟩]
            · rw [if_neg hc, if_neg (by omega)]
        | some mem =>
          obtain ⟨t1, heq, hnum, hlen1, hpages⟩ :=
            ih { t with pages := t.pages.set i none } (i + 1)
              (by simp only [List.length_set]; exact hlen) hn (by simp only; omega)
              (by simp only; omega)
          refine ⟨t1, heq, hnum, by rw [hlen1]; simp only [List.length_set], ?_⟩
          intro p
          rw [hpages p]
          by_cases hpi1 : p = i
          · subst hpi1
            rw [if_neg (by simp only; omega), if_pos ⟨Nat.le_refl _, hlt⟩]
            simp only [List.getElem?_set_self hil]
          · by_cases hc : i + 1 ≤ p ∧ p < t.num_rows
            · rw [if_pos hc, if_pos ⟨by omega, hc.2⟩]
            · rw [if_neg hc, if_neg (by omega)]
              simp only [List.getElem?_set_ne (Ne.symm hpi1)]
    · refine ⟨t, by rw [if_neg hlt], rfl, rfl, ?_⟩
      intro p
      rw [if_neg (by omega)]

/-- On a reachable table with more rows than page slots `freeTable` reads the
array `pages` out of bounds. -/
theorem freeTable_outOfBounds {t : Table} (hinv : t.Inv) (h : TABLE_MAX_PAGES < t.num_rows) :
    freeTable t = .error .outOfBounds := by
  unfold freeTable
  rw [freeTableLoop_outOfBounds t.num_rows t 0 hinv.1.1 h (Nat.zero_le _) (by omega)]

/-- On a reachable table with at most as many rows as page slots `freeTable`
gives back the empty table. -/
theorem freeTable_ok {t : Table} (hinv : t.Inv) (h : t.num_rows ≤ TABLE_MAX_PAGES) :
    freeTable t = .ok emptyTable := by
  obtain ⟨hwf, _, hpres⟩ := hinv
  obtain ⟨t1, heq, _, hlen, hpages⟩ :=
    freeTableLoop_ok t.num_rows t 0 hwf.1 h (Nat.zero_le _) (by omega)
  unfold freeTable
  rw [heq]
  simp only [emptyTable, Except.ok.injEq, Table.mk.injEq, and_true]
  apply List.ext_getElem?
  intro p
  rw [hpages p, List.getElem?_replicate]
  by_cases hp : p < TABLE_MAX_PAGES
  · rw [if_pos hp]
    by_cases hpn : p < t.num_rows
    · rw [if_pos ⟨Nat.zero_le _, hpn⟩]
    · rw [if_neg (by omega)]
      rcases hwf.slot hp with ha | hpr
      · exact ha
      · rw [hpres p hp, ROWS_PER_PAGE_eq] at hpr
        omega
  · rw [if_neg hp, if_neg (by omega), List.getElem?_eq_none (by rw [hwf.1]; omega)]

/-- Inside the array `pages`, `rowSlot` returns the slot of the row and at most
makes its page present. -/
theorem rowSlot_ok (junk : Nat → Nat) {t : Table} (hwf : t.WF) {i : Nat}
    (hi : i / ROWS_PER_PAGE < TABLE_MAX_PAGES) :
    ∃ t1, rowSlot junk t i =
        .ok (t1, { page := i / ROWS_PER_PAGE, offset := i % ROWS_PER_PAGE * ROW_SIZE }) ∧
      t1.WF ∧ t1.num_rows = t.num_rows ∧ t1.present (i / ROWS_PER_PAGE) ∧
      (∀ p, p ≠ i / ROWS_PER_PAGE → t1.pages[p]? = t.pages[p]?) ∧
      (t.present (i / ROWS_PER_PAGE) → t1 = t) := by
  have hl : i / ROWS_PER_PAGE < t.pages.length := by rw [hwf.1]; exact hi
  rcases hwf.slot hi with ha | ⟨mem, hm⟩
  · refine ⟨_, rowSlot_absent junk ha, ⟨?_, hwf.2.1, ?_⟩, rfl,
      ⟨malloc junk PAGE_SIZE, ?_⟩, ?_, ?_⟩
    · simp only [List.length_set]
      exact hwf.1
    · intro page hpage m hm
      rcases List.mem_or_eq_of_mem_set hpage with hin | heq
      · exact hwf.2.2 page hin m hm
      · subst heq
        rw [Option.mem_def] at hm
        rw [← Option.some.inj hm]
        exact malloc_length _ _
    · simp only [List.getElem?_set_self hl]
    · intro p hne
      simp only [List.getElem?_set_ne (Ne.symm hne)]
    · rintro ⟨mem, hm⟩
      rw [ha] at hm
      cases hm
  · exact ⟨t, rowSlot_present junk hm, hwf, rfl, ⟨mem, hm⟩, fun _ _ => rfl, fun _ => rfl⟩

/-! ## The concrete inputs -/

theorem aliceTable_WF : aliceTable.WF := by
  refine ⟨?_, by decide, ?_⟩
  · simp only [aliceTable, List.length_set]
    exact emptyTable_WF.1
  · intro page hpage mem hmem
    rcases List.mem_or_eq_of_mem_set hpage with hin | heq
    · exact emptyTable_WF.2.2 page hin mem hmem
    · subst heq
      rw [Option.mem_def] at hmem
      rw [← Option.some.inj hmem]
      simp only [List.length_append, List.length_replicate, u32Bytes_length, aliceRow,
        List.length_cons, List.length_nil]
      rfl

theorem aliceTable_present :
    ∀ i, i < aliceTable.num_rows → aliceTable.present (i / ROWS_PER_PAGE) := by
  intro i hi
  have h0 : i = 0 := by
    simp only [aliceTable] at hi
    omega
  subst h0
  exact ⟨u32Bytes aliceRow.id ++ aliceRow.username ++ aliceRow.email ++
      List.replicate (PAGE_SIZE - ROW_SIZE) 0,
    List.getElem?_set_self (by rw [emptyTable_WF.1]; decide)⟩

theorem aliceRow_WF : aliceRow.WF := by
  refine ⟨by decide, rfl, ?_, ?_, ?_⟩
  · simp only [aliceRow, List.length_append, List.length_replicate, List.length_cons,
      List.length_nil]
    rfl
  · intro b hb
    simp only [aliceRow, List.mem_append, List.mem_cons, List.mem_replicate,
      List.not_mem_nil, or_false] at hb
    omega
  · intro b hb
    simp only [aliceRow, List.mem_append, List.mem_cons, List.mem_replicate,
      List.not_mem_nil, or_false] at hb
    omega

theorem bobRow_WF : bobRow.WF := by
  refine ⟨by decide, rfl, ?_, ?_, ?_⟩
  · simp only [bobRow, List.length_append, List.length_replicate, List.length_cons,
      List.length_nil]
    rfl
  · intro b hb
    simp only [bobRow, List.mem_append, List.mem_cons, List.mem_replicate,
      List.not_mem_nil, or_false] at hb
    omega
  · intro b hb
    simp only [bobRow, List.mem_append, List.mem_cons, List.mem_replicate,
      List.not_mem_nil, or_false] at hb
    omega

theorem malloc_zeroJunk (n : Nat) : malloc zeroJunk n = List.replicate n 0 := by
  apply List.ext_getElem
  · simp [malloc]
  · intro i h1 h2
    simp [malloc, zeroJunk]

theorem memWrite_append_replicate (pre bytes : List Nat) (n off : Nat) (hoff : off = pre.length)
    (h : bytes.length ≤ n) :
    memWrite (pre ++ List.replicate n 0) off bytes =
      .ok (pre ++ bytes ++ List.replicate (n - bytes.length) 0) := by
  subst hoff
  unfold memWrite
  rw [if_pos (by simp only [List.length_append, List.length_replicate]; omega),
    List.take_left' rfl, List.drop_append, List.drop_replicate]

theorem serializeRow_zero_page (row : Row) (hrow : row.WF) :
    serializeRow row (List.replicate PAGE_SIZE 0) 0 =
      .ok (u32Bytes row.id ++ row.username ++ row.email ++
        List.replicate (PAGE_SIZE - ROW_SIZE) 0) := by
  obtain ⟨_, hu, he, _, _⟩ := hrow
  have hi := u32Bytes_length row.id
  unfold serializeRow
  simp only [ID_OFFSET, ID_SIZE, USERNAME_OFFSET, USERNAME_SIZE, EMAIL_OFFSET,
    EMAIL_SIZE, COLUMN_USERNAME_SIZE, COLUMN_EMAIL_SIZE, PAGE_SIZE, ROW_SIZE] at *
  rw [memcpy_whole _ _ _ hi]
  have h1 := memWrite_append_replicate [] (u32Bytes row.id) 4096 (0 + 0) rfl (by omega)
  rw [List.nil_append, List.nil_append] at h1
  rw [h1]
  simp only
  rw [memcpy_whole _ _ _ hu,
    memWrite_append_replicate (u32Bytes row.id) row.username _ _ (by rw [hi]) (by omega)]
  simp only
  rw [memcpy_whole _ _ _ he,
    memWrite_append_replicate (u32Bytes row.id ++ row.username) row.email _ _
      (by rw [List.length_append, hi, hu]) (by omega), hi, hu, he]

theorem executeInsert_alice :
    executeInsert zeroJunk insertAlice emptyTable = .ok (EXECUTE_SUCCESS, aliceTable) := by
  obtain ⟨mem, _, hcase, heq⟩ := executeInsert_eq zeroJunk insertAlice emptyTable_WF
    (show emptyTable.num_rows < TABLE_MAX_ROWS by decide)
  have hmem : mem = List.replicate PAGE_SIZE 0 := by
    rcases hcase with hc | ⟨_, hc⟩
    · have := emptyTable_absent (p := emptyTable.num_rows / ROWS_PER_PAGE) (by decide)
      rw [Table.absent, hc] at this
      cases this
    · rw [hc, malloc_zeroJunk]
  subst hmem
  rw [heq]
  have hs : serializeRow insertAlice.row_to_insert (List.replicate PAGE_SIZE 0)
      (emptyTable.num_rows % ROWS_PER_PAGE * ROW_SIZE) = _ :=
    serializeRow_zero_page aliceRow aliceRow_WF
  rw [hs]
  rfl

theorem aliceTable_Reachable : Reachable aliceTable :=
  Reachable.insert zeroJunk insertAlice EXECUTE_SUCCESS Reachable.empty executeInsert_alice

/-! ## Lemmas that need no well-formedness -/

theorem rowSlot_result {junk : Nat → Nat} {t t1 : Table} {i : Nat} {p : Ptr}
    (h : rowSlot junk t i = .ok (t1, p)) :
    p = { page := i / ROWS_PER_PAGE, offset := i % ROWS_PER_PAGE * ROW_SIZE } ∧
      t1.num_rows = t.num_rows := by
  unfold rowSlot at h
  simp only at h
  cases hp : t.pages[i / ROWS_PER_PAGE]? with
  | none =>
    rw [hp] at h
    cases h
  | some page =>
    rw [hp, byteOffset_eq] at h
    simp only [Except.ok.injEq, Prod.mk.injEq] at h
    obtain ⟨ht, hptr⟩ := h
    refine ⟨hptr.symm, ?_⟩
    rw [← ht]
    cases page <;> rfl

theorem readRow_num_rows {junk : Nat → Nat} {t t1 : Table} {i : Nat} {row : Row}
    (h : readRow junk t i = .ok (t1, row)) : t1.num_rows = t.num_rows := by
  unfold readRow at h
  split at h
  · cases h
  · rename_i t2 src hslot
    split at h
    · cases h
    · split at h
      · cases h
      · cases h
        exact (rowSlot_result hslot).2

theorem executeSelectLoop_num_rows (junk : Nat → Nat → Nat) :
    ∀ (fuel : Nat) (t : Table) (i : Nat) (t1 : Table) (rows : List Row),
      executeSelectLoop junk fuel t i = .ok (t1, rows) → t1.num_rows = t.num_rows := by
  intro fuel
  induction fuel with
  | zero =>
    intro t i t1 rows h
    unfold executeSelectLoop at h
    split at h
    · cases h
    · cases h
      rfl
  | succ fuel ih =>
    intro t i t1 rows h
    unfold executeSelectLoop at h
    split at h
    · split at h
      · cases h
      · rename_i t2 row hread
        split at h
        · cases h
        · rename_i t3 rows3 hloop
          cases h
          rw [ih _ _ _ _ hloop, readRow_num_rows hread]
    · cases h
      rfl

theorem executeInsert_num_rows {junk : Nat → Nat} {s : Statement} {t t1 : Table}
    {r : ExecuteResult} (h : executeInsert junk s t = .ok (r, t1)) :
    (TABLE_MAX_ROWS ≤ t.num_rows ∧ t1 = t) ∨
      (t.num_rows < TABLE_MAX_ROWS ∧ t1.num_rows = t.num_rows + 1) := by
  by_cases hn : TABLE_MAX_ROWS ≤ t.num_rows
  · rw [executeInsert_full junk s hn] at h
    cases h
    exact Or.inl ⟨hn, rfl⟩
  · right
    refine ⟨by omega, ?_⟩
    unfold executeInsert at h
    rw [if_neg (by omega)] at h
    split at h
    · cases h
    · rename_i t2 dest hslot
      split at h
      · cases h
      · split at h
        · cases h
        · cases h
          simp only
          rw [(rowSlot_result hslot).2]
          rw [TABLE_MAX_ROWS_eq] at hn
          rw [UINT32_RANGE_eq]
          omega

/-! ## Totality on well-formed tables -/

theorem readRow_total (junk : Nat → Nat) {t : Table} (hwf : t.WF) {i : Nat}
    (hi : i / ROWS_PER_PAGE < TABLE_MAX_PAGES) :
    ∃ t1 row, readRow junk t i = .ok (t1, row) ∧ t1.WF ∧ t1.num_rows = t.num_rows := by
  obtain ⟨t1, h1, hwf1, hnum, ⟨mem, hm⟩, _, _⟩ := rowSlot_ok junk hwf hi
  obtain ⟨row, hrow⟩ := @deserializeRow_ok mem (i % ROWS_PER_PAGE * ROW_SIZE)
    (by rw [hwf1.page_length hm]; exact byteOffset_bound i)
  refine ⟨t1, row, ?_, hwf1, hnum⟩
  unfold readRow
  rw [h1]
  simp only [deref, hm, hrow]

theorem executeSelectLoop_total (junk : Nat → Nat → Nat) :
    ∀ (fuel : Nat) (t : Table) (i : Nat), t.WF → t.num_rows ≤ TABLE_MAX_ROWS →
      t.num_rows - i ≤ fuel →
      ∃ t1 rows, executeSelectLoop junk fuel t i = .ok (t1, rows) ∧ t1.WF := by
  intro fuel
  induction fuel with
  | zero =>
    intro t i hwf _ hf
    refine ⟨t, [], ?_, hwf⟩
    unfold executeSelectLoop
    rw [if_neg (by omega)]
  | succ fuel ih =>
    intro t i hwf hle hf
    unfold executeSelectLoop
    by_cases hlt : i < t.num_rows
    · have hpage : i / ROWS_PER_PAGE < TABLE_MAX_PAGES := by
        rw [TABLE_MAX_ROWS_eq] at hle
        rw [ROWS_PER_PAGE_eq, TABLE_MAX_PAGES_eq]
        omega
      have hmod : (i + 1) % UINT32_RANGE = i + 1 :=
        Nat.mod_eq_of_lt (by rw [TABLE_MAX_ROWS_eq] at hle; rw [UINT32_RANGE_eq]; omega)
      obtain ⟨t1, row, hread, hwf1, hnum⟩ := readRow_total (junk i) hwf hpage
      obtain ⟨t2, rows, hloop, hwf2⟩ := ih t1 (i + 1) hwf1 (by omega) (by omega)
      refine ⟨t2, row :: rows, ?_, hwf2⟩
      rw [if_pos hlt, hread]
      simp only
      rw [hmod, hloop]
    · exact ⟨t, [], by rw [if_neg hlt], hwf⟩

theorem executeSelect_total (junk : Nat → Nat → Nat) (s : Statement) {t : Table} (hwf : t.WF)
    (hle : t.num_rows ≤ TABLE_MAX_ROWS) :
    ∃ t1 rows, executeSelect junk s t = .ok (EXECUTE_SUCCESS, t1, rows) := by
  obtain ⟨t1, rows, hloop, _⟩ :=
    executeSelectLoop_total junk t.num_rows t 0 hwf hle (by omega)
  refine ⟨t1, rows, ?_⟩
  unfold executeSelect
  rw [hloop]

theorem executeInsert_total (junk : Nat → Nat) (s : Statement) {t : Table} (hwf : t.WF)
    (hrow : s.row_to_insert.WF) : ∃ r t1, executeInsert junk s t = .ok (r, t1) := by
  by_cases hn : TABLE_MAX_ROWS ≤ t.num_rows
  · exact ⟨_, _, executeInsert_full junk s hn⟩
  · obtain ⟨t1, h, _⟩ := executeInsert_success junk s hwf hrow (by omega)
    exact ⟨_, t1, h⟩

theorem aliceTable_page :
    aliceTable.pages[0]? = some (some (u32Bytes aliceRow.id ++ aliceRow.username ++
      aliceRow.email ++ List.replicate (PAGE_SIZE - ROW_SIZE) 0)) :=
  List.getElem?_set_self (by rw [emptyTable_WF.1]; decide)

/-! ## Counting pages -/

theorem countP_isSome_prefix {α : Type} :
    ∀ (l : List (Option α)) (k : Nat), k ≤ l.length →
      (∀ p, p < l.length → ((∃ a, l[p]? = some (some a)) ↔ p < k)) →
      l.countP Option.isSome = k := by
  intro l
  induction l with
  | nil =>
    intro k hk _
    simp only [List.length_nil] at hk
    rw [List.countP_nil]
    omega
  | cons x l ih =>
    intro k hk h
    simp only [List.length_cons] at hk h
    have hrest : ∀ k1, (∀ p, p < l.length + 1 → ((∃ a, (x :: l)[p]? = some (some a)) ↔ p < k1 + 1)) →
        ∀ p, p < l.length → ((∃ a, l[p]? = some (some a)) ↔ p < k1) := by
      intro k1 h1 p hp
      have := h1 (p + 1) (by omega)
      rw [List.getElem?_cons_succ] at this
      rw [this]
      omega
    cases k with
    | zero =>
      have h0 := h 0 (by omega)
      have hx : x = none := by
        cases x with
        | none => rfl
        | some a => exact absurd (h0.mp ⟨a, List.getElem?_cons_zero⟩) (Nat.lt_irrefl 0)
      subst hx
      have hl : List.countP Option.isSome l = 0 := by
        apply ih 0 (Nat.zero_le _)
        intro p hp
        have := h (p + 1) (by omega)
        rw [List.getElem?_cons_succ] at this
        rw [this]
        omega
      rw [List.countP_cons, hl]
      rfl
    | succ k =>
      obtain ⟨a, ha⟩ := (h 0 (by omega)).mpr (by omega)
      rw [List.getElem?_cons_zero] at ha
      cases ha
      rw [List.countP_cons, ih k (by omega) (hrest k h)]
      rfl

theorem Table.Inv.allocated_eq {t : Table} (hinv : t.Inv) :
    t.allocated = (t.num_rows + ROWS_PER_PAGE - 1) / ROWS_PER_PAGE := by
  obtain ⟨hwf, hle, hpages⟩ := hinv
  rw [TABLE_MAX_ROWS_eq] at hle
  unfold Table.allocated
  apply countP_isSome_prefix
  · rw [hwf.1, ROWS_PER_PAGE_eq, TABLE_MAX_PAGES_eq]
    omega
  · intro p hp
    rw [hwf.1] at hp
    have := hpages p hp
    unfold Table.present at this
    rw [this, ROWS_PER_PAGE_eq]
    omega

/-! ## The indexes used by `freeTable` -/

theorem freeTableLoopIndexes_lt :
    ∀ (fuel : Nat) (t : Table) (i k : Nat), k ∈ freeTableLoopIndexes fuel t i →
      k < t.num_rows := by
  intro fuel
  induction fuel with
  | zero =>
    intro t i k hk
    simp [freeTableLoopIndexes] at hk
  | succ fuel ih =>
    intro t i k hk
    unfold freeTableLoopIndexes at hk
    split at hk
    · rename_i hlt
      split at hk
      · simp only [List.mem_singleton] at hk
        omega
      · rcases List.mem_cons.mp hk with h | h
        · omega
        · exact ih _ _ _ h
      · rcases List.mem_cons.mp hk with h | h
        · omega
        · have := ih _ _ _ h
          exact this
    · simp at hk

theorem freeTableLoopIndexes_outOfBounds :
    ∀ (fuel : Nat) (t : Table) (i : Nat), t.pages.length = TABLE_MAX_PAGES →
      TABLE_MAX_PAGES < t.num_rows → i ≤ TABLE_MAX_PAGES → TABLE_MAX_PAGES - i < fuel →
      TABLE_MAX_PAGES ∈ freeTableLoopIndexes fuel t i := by
  intro fuel
  induction fuel with
  | zero =>
    intro t i _ _ _ hf
    exact absurd hf (Nat.not_lt_zero _)
  | succ fuel ih =>
    intro t i hlen hn hi hf
    unfold freeTableLoopIndexes
    rw [if_pos (by omega)]
    by_cases hi1 : i = TABLE_MAX_PAGES
    · rw [List.getElem?_eq_none (by omega), hi1]
      exact List.mem_singleton.mpr rfl
    · have hil : i < t.pages.length := by omega
      have hmod : (i + 1) % UINT32_RANGE = i + 1 :=
        Nat.mod_eq_of_lt (by rw [TABLE_MAX_PAGES_eq] at hi; rw [UINT32_RANGE_eq]; omega)
      rw [List.getElem?_eq_getElem hil, hmod]
      cases t.pages[i] with
      | none => exact List.mem_cons_of_mem _ (ih t (i + 1) hlen hn (by omega) (by omega))
      | some mem =>
        exact List.mem_cons_of_mem _
          (ih _ (i + 1) (by simp only [List.length_set]; exact hlen) hn (by omega) (by omega))

theorem emptyTable_not_present (p : Nat) : ¬ emptyTable.present p := by
  rintro ⟨mem, hm⟩
  rw [emptyTable, List.getElem?_replicate] at hm
  split at hm
  · cases hm
  · cases hm

/-! ## The bytes that `serializeRow` leaves -/

theorem memWrite_drop (pre b bytes : List Nat) (k off : Nat) (hoff : off = pre.length)
    (hk : k + bytes.length ≤ b.length) :
    memWrite (pre ++ b.drop k) off bytes = .ok (pre ++ bytes ++ b.drop (k + bytes.length)) := by
  subst hoff
  unfold memWrite
  rw [if_pos (by simp only [List.length_append, List.length_drop]; omega),
    List.take_left' rfl, List.drop_append, List.drop_drop]

/-- The buffer after `serializeRow`: the bytes before `dest`, the id, the
username, the email, the bytes from `dest + ROW_SIZE` on. -/
theorem serializeRow_eq {row : Row} {buffer : List Nat} {dest : Nat} (hrow : row.WF)
    (hbuf : dest + ROW_SIZE ≤ buffer.length) :
    serializeRow row buffer dest = .ok (buffer.take dest ++ u32Bytes row.id ++ row.username ++
      row.email ++ buffer.drop (dest + ROW_SIZE)) := by
  obtain ⟨_, hu, he, _, _⟩ := hrow
  have hi := u32Bytes_length row.id
  have hpre : (buffer.take dest).length = dest := by
    rw [List.length_take]
    omega
  unfold serializeRow
  simp only [ROW_SIZE, ID_OFFSET, ID_SIZE, USERNAME_OFFSET, USERNAME_SIZE, EMAIL_OFFSET,
    EMAIL_SIZE, COLUMN_USERNAME_SIZE, COLUMN_EMAIL_SIZE] at *
  have h1 := memWrite_drop (buffer.take dest) buffer (u32Bytes row.id) dest (dest + 0)
    (by omega) (by omega)
  rw [List.take_append_drop] at h1
  rw [memcpy_whole _ _ _ hi, h1]
  simp only
  rw [memcpy_whole _ _ _ hu,
    memWrite_drop _ buffer row.username _ _ (by rw [List.length_append, hpre, hi])
      (by omega)]
  simp only
  rw [memcpy_whole _ _ _ he,
    memWrite_drop _ buffer row.email _ _
      (by rw [List.length_append, List.length_append, hpre, hi, hu]) (by omega), hi, hu, he]

theorem u32Bytes_bytesU32 :
    ∀ bs : List Nat, bs.length = 4 → (∀ x ∈ bs, x < 256) → u32Bytes (bytesU32 bs) = bs := by
  intro bs hlen hlt
  match bs, hlen, hlt with
  | [a, b, c, d], _, hlt =>
    have ha := hlt a (by simp)
    have hb := hlt b (by simp)
    have hc := hlt c (by simp)
    have hd := hlt d (by simp)
    simp only [bytesU32, u32Bytes, List.foldr, List.cons.injEq, and_true]
    omega

theorem bytesU32_lt :
    ∀ bs : List Nat, bs.length = 4 → (∀ x ∈ bs, x < 256) → bytesU32 bs < UINT32_RANGE := by
  intro bs hlen hlt
  match bs, hlen, hlt with
  | [a, b, c, d], _, hlt =>
    have ha := hlt a (by simp)
    have hb := hlt b (by simp)
    have hc := hlt c (by simp)
    have hd := hlt d (by simp)
    simp only [bytesU32, List.foldr, UINT32_RANGE_eq]
    omega

/-- What `deserializeRow` reads from a buffer of bytes is a row of the C
type, made of the three regions of the slot. -/
theorem deserializeRow_eq {b : List Nat} {src : Nat} (hbytes : ∀ x ∈ b, x < 256)
    (hb : src + ROW_SIZE ≤ b.length) :
    ∃ row, deserializeRow b src = .ok row ∧ row.WF ∧
      u32Bytes row.id ++ row.username ++ row.email = (b.drop src).take ROW_SIZE := by
  have hmem : ∀ (m n : Nat), ∀ x ∈ (b.drop m).take n, x < 256 :=
    fun m n x hx => hbytes x (List.mem_of_mem_drop (List.mem_of_mem_take hx))
  have hlen : ∀ (m n : Nat), m + n ≤ b.length → ((b.drop m).take n).length = n := by
    intro m n h
    rw [List.length_take, List.length_drop]
    omega
  simp only [ROW_SIZE, ID_OFFSET, ID_SIZE, USERNAME_OFFSET, USERNAME_SIZE, EMAIL_OFFSET,
    EMAIL_SIZE, COLUMN_USERNAME_SIZE, COLUMN_EMAIL_SIZE] at hb
  refine ⟨{ id := bytesU32 ((b.drop (src + 0)).take 4),
            username := (b.drop (src + (0 + 4))).take 32,
            email := (b.drop (src + (0 + 4 + 32))).take 255 }, ?_, ?_, ?_⟩
  · unfold deserializeRow memRead
    simp only [ID_OFFSET, ID_SIZE, USERNAME_OFFSET, USERNAME_SIZE, EMAIL_OFFSET,
      EMAIL_SIZE, COLUMN_USERNAME_SIZE, COLUMN_EMAIL_SIZE]
    rw [if_pos (by omega), if_pos (by omega), if_pos (by omega)]
  · exact ⟨bytesU32_lt _ (hlen _ _ (by omega)) (hmem _ _), hlen _ _ (by omega),
      hlen _ _ (by omega), hmem _ _, hmem _ _⟩
  · simp only
    rw [u32Bytes_bytesU32 _ (hlen _ _ (by omega)) (hmem _ _)]
    simp only [ROW_SIZE, ID_SIZE, USERNAME_SIZE, EMAIL_SIZE, COLUMN_USERNAME_SIZE,
      COLUMN_EMAIL_SIZE]
    rw [List.take_add, List.take_add, List.drop_drop, List.drop_drop]
    rfl

theorem memRead_middle (pre body post : List Nat) (off n : Nat) (hoff : off = pre.length)
    (hn : n = body.length) : memRead (pre ++ body ++ post) off n = .ok body := by
  subst hoff
  subst hn
  unfold memRead
  rw [if_pos (by simp only [List.length_append]; omega), List.append_assoc,
    List.drop_left' rfl, List.take_left' rfl]

/-- The `ROW_SIZE` bytes of the slot after `serializeRow` are the id, the
username and the email, one after the other. -/
theorem serializeRow_slot {row : Row} {buffer : List Nat} {dest : Nat} (hrow : row.WF)
    (hbuf : dest + ROW_SIZE ≤ buffer.length) :
    ∃ buffer1, serializeRow row buffer dest = .ok buffer1 ∧
      buffer1 = buffer.take dest ++ (u32Bytes row.id ++ row.username ++ row.email) ++
        buffer.drop (dest + ROW_SIZE) ∧
      memRead buffer1 dest ROW_SIZE = .ok (u32Bytes row.id ++ row.username ++ row.email) := by
  have hpre : (buffer.take dest).length = dest := by
    rw [List.length_take]
    omega
  have hbody : ROW_SIZE = (u32Bytes row.id ++ row.username ++ row.email).length := by
    rw [List.length_append, List.length_append, u32Bytes_length, hrow.2.1, hrow.2.2.1]
    rfl
  refine ⟨_, serializeRow_eq hrow hbuf, by simp only [List.append_assoc], ?_⟩
  have heq : buffer.take dest ++ u32Bytes row.id ++ row.username ++ row.email ++
      buffer.drop (dest + ROW_SIZE) =
      buffer.take dest ++ (u32Bytes row.id ++ row.username ++ row.email) ++
        buffer.drop (dest + ROW_SIZE) := by
    simp only [List.append_assoc]
  rw [heq]
  exact memRead_middle _ _ _ _ _ hpre.symm hbody

/-! ## The claims -/

/-- C1: from the empty table, inserting at most `TABLE_MAX_ROWS` rows one after
the other succeeds every time, and `executeSelect` then hands to `printRow`
exactly the inserted rows, in the order of insertion, each equal to the row
inserted in its id, its username bytes and its email bytes. -/
theorem insert_select_roundtrip (calls : List ((Nat → Nat) × Statement))
    (hlen : calls.length ≤ TABLE_MAX_ROWS) (hrows : ∀ c ∈ calls, c.2.row_to_insert.WF)
    (junk : Nat → Nat → Nat) (s : Statement) :
    ∃ t, executeInserts calls emptyTable =
        .ok (List.replicate calls.length EXECUTE_SUCCESS, t) ∧
      executeSelect junk s t =
        .ok (EXECUTE_SUCCESS, t, calls.map (fun c => c.2.row_to_insert)) := by
  obtain ⟨t, heq, hwf, hst⟩ := executeInserts_success calls emptyTable [] emptyTable_WF
    emptyTable_Stores hrows (by simpa [emptyTable] using hlen)
  exact ⟨t, heq, executeSelect_Stores junk s hwf.2.1 (by simpa using hst)⟩

theorem insert_select_roundtrip_witness :
    ∃ t, executeInserts [(zeroJunk, insertAlice), (zeroJunk, insertBob)] emptyTable =
        .ok ([EXECUTE_SUCCESS, EXECUTE_SUCCESS], t) ∧
      executeSelect (fun _ => zeroJunk) selectAll t =
        .ok (EXECUTE_SUCCESS, t, [aliceRow, bobRow]) :=
  insert_select_roundtrip [(zeroJunk, insertAlice), (zeroJunk, insertBob)] (by decide)
    (by
      intro c hc
      simp only [List.mem_cons, List.mem_singleton, List.not_mem_nil, or_false] at hc
      rcases hc with h | h
      · rw [h]; exact aliceRow_WF
      · rw [h]; exact bobRow_WF)
    (fun _ => zeroJunk) selectAll

/-- C2: for a row of the C type and a buffer with at least `ROW_SIZE` bytes
from `dest` on, `serializeRow` succeeds and `deserializeRow` on the buffer it
leaves gives back the row: same id, same username bytes, same email bytes. -/
theorem deserializeRow_serializeRow_roundtrip (row : Row) (buffer : List Nat) (dest : Nat)
    (hrow : row.WF) (hbuf : dest + ROW_SIZE ≤ buffer.length) :
    ∃ buffer1, serializeRow row buffer dest = .ok buffer1 ∧
      deserializeRow buffer1 dest = .ok row := by
  obtain ⟨buffer1, hs, _, hd, _⟩ := deserializeRow_serializeRow hrow hbuf
  exact ⟨buffer1, hs, hd⟩

theorem deserializeRow_serializeRow_roundtrip_witness :
    ∃ buffer1, serializeRow aliceRow (List.replicate 300 7) 5 = .ok buffer1 ∧
      deserializeRow buffer1 5 = .ok aliceRow :=
  deserializeRow_serializeRow_roundtrip aliceRow (List.replicate 300 7) 5 aliceRow_WF
    (by rw [List.length_replicate, ROW_SIZE_eq]; decide)

/-- C3: `executeInsert` returns `EXECUTE_TABLE_FULL` exactly when
`num_rows >= TABLE_MAX_ROWS`, and then the table after the call is the table
before it. -/
theorem executeInsert_table_full_iff (junk : Nat → Nat) (s : Statement) (t : Table) :
    ((∃ t1, executeInsert junk s t = .ok (EXECUTE_TABLE_FULL, t1)) ↔
        TABLE_MAX_ROWS ≤ t.num_rows) ∧
      ∀ t1, executeInsert junk s t = .ok (EXECUTE_TABLE_FULL, t1) → t1 = t := by
  have key : ∀ t1, executeInsert junk s t = .ok (EXECUTE_TABLE_FULL, t1) →
      TABLE_MAX_ROWS ≤ t.num_rows ∧ t1 = t := by
    intro t1 h
    by_cases hn : TABLE_MAX_ROWS ≤ t.num_rows
    · rw [executeInsert_full junk s hn] at h
      cases h
      exact ⟨hn, rfl⟩
    · exfalso
      unfold executeInsert at h
      rw [if_neg (by omega)] at h
      split at h
      · cases h
      · split at h
        · cases h
        · split at h
          · cases h
          · cases h
  refine ⟨⟨?_, fun hn => ⟨t, executeInsert_full junk s hn⟩⟩, fun t1 h => (key t1 h).2⟩
  rintro ⟨t1, h⟩
  exact (key t1 h).1

/-- C4: from the empty table, `TABLE_MAX_ROWS` calls of `executeInsert` in a
row all return `EXECUTE_SUCCESS`; one more call returns `EXECUTE_TABLE_FULL`
and leaves `num_rows` at `TABLE_MAX_ROWS`. -/
theorem fill_then_table_full (calls : List ((Nat → Nat) × Statement))
    (hlen : calls.length = TABLE_MAX_ROWS) (hrows : ∀ c ∈ calls, c.2.row_to_insert.WF)
    (junk : Nat → Nat) (s : Statement) :
    ∃ t t1, executeInserts calls emptyTable =
        .ok (List.replicate TABLE_MAX_ROWS EXECUTE_SUCCESS, t) ∧
      t.num_rows = TABLE_MAX_ROWS ∧
      executeInsert junk s t = .ok (EXECUTE_TABLE_FULL, t1) ∧
      t1.num_rows = TABLE_MAX_ROWS := by
  obtain ⟨t, heq, _, hst⟩ := executeInserts_success calls emptyTable [] emptyTable_WF
    emptyTable_Stores hrows (by simp [emptyTable, hlen])
  have hnum : t.num_rows = TABLE_MAX_ROWS := by
    rw [hst.1]
    simpa using hlen
  rw [hlen] at heq
  exact ⟨t, t, heq, hnum, executeInsert_full junk s (by omega), hnum⟩

theorem fill_then_table_full_witness :
    ∃ t t1, executeInserts (List.replicate TABLE_MAX_ROWS (zeroJunk, insertAlice)) emptyTable =
        .ok (List.replicate TABLE_MAX_ROWS EXECUTE_SUCCESS, t) ∧
      t.num_rows = TABLE_MAX_ROWS ∧
      executeInsert zeroJunk insertBob t = .ok (EXECUTE_TABLE_FULL, t1) ∧
      t1.num_rows = TABLE_MAX_ROWS :=
  fill_then_table_full (List.replicate TABLE_MAX_ROWS (zeroJunk, insertAlice))
    (List.length_replicate _ _)
    (fun c hc => by rw [List.eq_of_mem_replicate hc]; exact aliceRow_WF) zeroJunk insertBob

/-- C5: on a well-formed table with `num_rows = n < TABLE_MAX_ROWS` whose pages
holding a row index below `n` are present, `executeInsert` of a row of the C
type returns `EXECUTE_SUCCESS`, sets `num_rows` to `n + 1`, the row read from
slot `n` afterwards is the inserted row, and the row read from every slot
`i < n` is the one read there before the call. -/
theorem executeInsert_appends (junk : Nat → Nat) (s : Statement) (t : Table) (hwf : t.WF)
    (hrow : s.row_to_insert.WF) (hn : t.num_rows < TABLE_MAX_ROWS)
    (hp : ∀ i, i < t.num_rows → t.present (i / ROWS_PER_PAGE)) :
    ∃ t1, executeInsert junk s t = .ok (EXECUTE_SUCCESS, t1) ∧
      t1.num_rows = t.num_rows + 1 ∧
      (∀ j, readRow j t1 t.num_rows = .ok (t1, s.row_to_insert)) ∧
      ∀ i, i < t.num_rows →
        ∃ row, (∀ j, readRow j t i = .ok (t, row)) ∧ (∀ j, readRow j t1 i = .ok (t1, row)) := by
  obtain ⟨t1, heq, _, hnum, hnew, hold⟩ := executeInsert_success junk s hwf hrow hn
  exact ⟨t1, heq, hnum, hnew, fun i hi => hold i (by omega) (hp i hi)⟩

theorem executeInsert_appends_witness :
    ∃ t1, executeInsert zeroJunk insertBob aliceTable = .ok (EXECUTE_SUCCESS, t1) ∧
      t1.num_rows = aliceTable.num_rows + 1 ∧
      (∀ j, readRow j t1 aliceTable.num_rows = .ok (t1, insertBob.row_to_insert)) ∧
      ∀ i, i < aliceTable.num_rows →
        ∃ row, (∀ j, readRow j aliceTable i = .ok (aliceTable, row)) ∧
          (∀ j, readRow j t1 i = .ok (t1, row)) :=
  executeInsert_appends zeroJunk insertBob aliceTable aliceTable_WF bobRow_WF (by decide)
    aliceTable_present

/-- C6, the code at a failing input: `newTable` assigns `num_rows` only, so on a
block that `malloc` hands back with old pointers in it every page slot of the
new table is present, none is null. -/
theorem newTable_keeps_stale_pages :
    (newTable staleTable).num_rows = 0 ∧
      ∀ p, p < TABLE_MAX_PAGES → (newTable staleTable).present p := by
  refine ⟨rfl, fun p hp => ⟨malloc zeroJunk PAGE_SIZE, ?_⟩⟩
  show (List.replicate TABLE_MAX_PAGES (some (malloc zeroJunk PAGE_SIZE)))[p]? = _
  rw [List.getElem?_replicate, if_pos hp]

/-- C7: for every row index `i`, the position that `rowSlot` returns is in page
number `i / ROWS_PER_PAGE` at byte offset `(i % ROWS_PER_PAGE) * ROW_SIZE`, on
any table; so for every `k` the positions returned for `k` and
`k + ROWS_PER_PAGE` are in different pages, and for every `k` with
`k % ROWS_PER_PAGE + 1 < ROWS_PER_PAGE` the positions returned for `k` and
`k + 1` are in the same page, `ROW_SIZE` bytes apart. On a well-formed table
`rowSlot` returns these positions for every index below `TABLE_MAX_ROWS`. -/
theorem rowSlot_position (junk junk1 : Nat → Nat) (t : Table) (hwf : t.WF) :
    (∀ (u u1 : Table) (i : Nat) (p : Ptr), rowSlot junk u i = .ok (u1, p) →
        p.page = i / ROWS_PER_PAGE ∧ p.offset = i % ROWS_PER_PAGE * ROW_SIZE) ∧
    (∀ (u u1 u2 : Table) (k : Nat) (p1 p2 : Ptr), rowSlot junk u k = .ok (u1, p1) →
        rowSlot junk1 u1 (k + ROWS_PER_PAGE) = .ok (u2, p2) → p1.page ≠ p2.page) ∧
    (∀ (u u1 u2 : Table) (k : Nat) (p1 p2 : Ptr), k % ROWS_PER_PAGE + 1 < ROWS_PER_PAGE →
        rowSlot junk u k = .ok (u1, p1) → rowSlot junk1 u1 (k + 1) = .ok (u2, p2) →
        p1.page = p2.page ∧ p2.offset = p1.offset + ROW_SIZE) ∧
    (∀ i, i < TABLE_MAX_ROWS → ∃ t1, rowSlot junk t i =
        .ok (t1, { page := i / ROWS_PER_PAGE, offset := i % ROWS_PER_PAGE * ROW_SIZE })) ∧
    (∀ k, k + ROWS_PER_PAGE < TABLE_MAX_ROWS → ∃ t1 p1 t2 p2,
        rowSlot junk t k = .ok (t1, p1) ∧ rowSlot junk1 t1 (k + ROWS_PER_PAGE) = .ok (t2, p2) ∧
        p1.page ≠ p2.page) ∧
    (∀ k, k < TABLE_MAX_ROWS → k % ROWS_PER_PAGE + 1 < ROWS_PER_PAGE → ∃ t1 p1 t2 p2,
        rowSlot junk t k = .ok (t1, p1) ∧ rowSlot junk1 t1 (k + 1) = .ok (t2, p2) ∧
        p1.page = p2.page ∧ p2.offset = p1.offset + ROW_SIZE) := by
  have hpage : ∀ i, i < TABLE_MAX_ROWS → i / ROWS_PER_PAGE < TABLE_MAX_PAGES := by
    intro i hi
    rw [TABLE_MAX_ROWS_eq] at hi
    rw [ROWS_PER_PAGE_eq, TABLE_MAX_PAGES_eq]
    omega
  have hdiff : ∀ (u u1 u2 : Table) (k : Nat) (p1 p2 : Ptr), rowSlot junk u k = .ok (u1, p1) →
      rowSlot junk1 u1 (k + ROWS_PER_PAGE) = .ok (u2, p2) → p1.page ≠ p2.page := by
    intro u u1 u2 k p1 p2 h1 h2
    rw [(rowSlot_result h1).1, (rowSlot_result h2).1]
    simp only [ROWS_PER_PAGE_eq]
    omega
  have hnext : ∀ (u u1 u2 : Table) (k : Nat) (p1 p2 : Ptr),
      k % ROWS_PER_PAGE + 1 < ROWS_PER_PAGE →
      rowSlot junk u k = .ok (u1, p1) → rowSlot junk1 u1 (k + 1) = .ok (u2, p2) →
      p1.page = p2.page ∧ p2.offset = p1.offset + ROW_SIZE := by
    intro u u1 u2 k p1 p2 hmod h1 h2
    rw [(rowSlot_result h1).1, (rowSlot_result h2).1]
    simp only [ROWS_PER_PAGE_eq, ROW_SIZE_eq] at hmod ⊢
    omega
  refine ⟨?_, hdiff, hnext, ?_, ?_, ?_⟩
  · intro u u1 i p h
    rw [(rowSlot_result h).1]
    exact ⟨rfl, rfl⟩
  · intro i hi
    obtain ⟨t1, h1, _⟩ := rowSlot_ok junk hwf (hpage i hi)
    exact ⟨t1, h1⟩
  · intro k hk
    obtain ⟨t1, h1, hwf1, _⟩ := rowSlot_ok junk hwf (hpage k (by omega))
    obtain ⟨t2, h2, _⟩ := rowSlot_ok junk1 hwf1 (hpage (k + ROWS_PER_PAGE) hk)
    exact ⟨t1, _, t2, _, h1, h2, hdiff _ _ _ _ _ _ h1 h2⟩
  · intro k hk hmod
    have hk1 : k + 1 < TABLE_MAX_ROWS := by
      rw [TABLE_MAX_ROWS_eq] at hk ⊢
      rw [ROWS_PER_PAGE_eq] at hmod
      omega
    obtain ⟨t1, h1, hwf1, _⟩ := rowSlot_ok junk hwf (hpage k hk)
    obtain ⟨t2, h2, _⟩ := rowSlot_ok junk1 hwf1 (hpage (k + 1) hk1)
    exact ⟨t1, _, t2, _, h1, h2, hnext _ _ _ _ _ _ hmod h1 h2⟩

theorem rowSlot_position_witness :
    (∀ (u u1 : Table) (i : Nat) (p : Ptr), rowSlot zeroJunk u i = .ok (u1, p) →
        p.page = i / ROWS_PER_PAGE ∧ p.offset = i % ROWS_PER_PAGE * ROW_SIZE) ∧
    (∀ (u u1 u2 : Table) (k : Nat) (p1 p2 : Ptr), rowSlot zeroJunk u k = .ok (u1, p1) →
        rowSlot zeroJunk u1 (k + ROWS_PER_PAGE) = .ok (u2, p2) → p1.page ≠ p2.page) ∧
    (∀ (u u1 u2 : Table) (k : Nat) (p1 p2 : Ptr), k % ROWS_PER_PAGE + 1 < ROWS_PER_PAGE →
        rowSlot zeroJunk u k = .ok (u1, p1) → rowSlot zeroJunk u1 (k + 1) = .ok (u2, p2) →
        p1.page = p2.page ∧ p2.offset = p1.offset + ROW_SIZE) ∧
    (∀ i, i < TABLE_MAX_ROWS → ∃ t1, rowSlot zeroJunk aliceTable i =
        .ok (t1, { page := i / ROWS_PER_PAGE, offset := i % ROWS_PER_PAGE * ROW_SIZE })) ∧
    (∀ k, k + ROWS_PER_PAGE < TABLE_MAX_ROWS → ∃ t1 p1 t2 p2,
        rowSlot zeroJunk aliceTable k = .ok (t1, p1) ∧
        rowSlot zeroJunk t1 (k + ROWS_PER_PAGE) = .ok (t2, p2) ∧ p1.page ≠ p2.page) ∧
    (∀ k, k < TABLE_MAX_ROWS → k % ROWS_PER_PAGE + 1 < ROWS_PER_PAGE → ∃ t1 p1 t2 p2,
        rowSlot zeroJunk aliceTable k = .ok (t1, p1) ∧
        rowSlot zeroJunk t1 (k + 1) = .ok (t2, p2) ∧
        p1.page = p2.page ∧ p2.offset = p1.offset + ROW_SIZE) :=
  rowSlot_position zeroJunk zeroJunk aliceTable aliceTable_WF

/-- C8: for a row index `i` with `i / ROWS_PER_PAGE < TABLE_MAX_PAGES`,
`rowSlot` leaves `num_rows` and every page slot other than `i / ROWS_PER_PAGE`
as they were and leaves that slot present; when the slot was present before,
the whole table is unchanged; a second call for the same index returns the same
pointer and changes nothing. -/
theorem rowSlot_frame (junk junk1 : Nat → Nat) (t : Table) (hwf : t.WF) (i : Nat)
    (hi : i / ROWS_PER_PAGE < TABLE_MAX_PAGES) :
    ∃ t1 ptr, rowSlot junk t i = .ok (t1, ptr) ∧ t1.num_rows = t.num_rows ∧
      t1.present (i / ROWS_PER_PAGE) ∧
      (∀ p, p ≠ i / ROWS_PER_PAGE → t1.pages[p]? = t.pages[p]?) ∧
      (t.present (i / ROWS_PER_PAGE) → t1 = t) ∧
      rowSlot junk1 t1 i = .ok (t1, ptr) := by
  obtain ⟨t1, h1, hwf1, hnum, hpres, hother, hsame⟩ := rowSlot_ok junk hwf hi
  obtain ⟨t2, h2, _, _, _, _, hsame2⟩ := rowSlot_ok junk1 hwf1 hi
  rw [hsame2 hpres] at h2
  exact ⟨t1, _, h1, hnum, hpres, hother, hsame, h2⟩

theorem rowSlot_frame_witness :
    ∃ t1 ptr, rowSlot zeroJunk aliceTable 20 = .ok (t1, ptr) ∧
      t1.num_rows = aliceTable.num_rows ∧ t1.present (20 / ROWS_PER_PAGE) ∧
      (∀ p, p ≠ 20 / ROWS_PER_PAGE → t1.pages[p]? = aliceTable.pages[p]?) ∧
      (aliceTable.present (20 / ROWS_PER_PAGE) → t1 = aliceTable) ∧
      rowSlot (fun _ => 255) t1 20 = .ok (t1, ptr) :=
  rowSlot_frame zeroJunk (fun _ => 255) aliceTable aliceTable_WF 20 (by decide)

/-- C9: on every table reachable from the empty table by calls of
`executeInsert`, `executeSelect` returns `EXECUTE_SUCCESS` and the table after
the call is the table before it. -/
theorem executeSelect_reachable (t : Table) (hr : Reachable t) (junk : Nat → Nat → Nat)
    (s : Statement) : ∃ rows, executeSelect junk s t = .ok (EXECUTE_SUCCESS, t, rows) := by
  have hinv := hr.toInv
  obtain ⟨rows, hst⟩ := hinv.1.exists_Stores (fun i hi => hinv.present_of_lt hi)
  exact ⟨rows, executeSelect_Stores junk s hinv.1.2.1 hst⟩

theorem executeSelect_reachable_witness :
    Reachable aliceTable ∧
      ∃ rows, executeSelect (fun _ => zeroJunk) selectAll aliceTable =
        .ok (EXECUTE_SUCCESS, aliceTable, rows) :=
  ⟨aliceTable_Reachable,
    executeSelect_reachable aliceTable aliceTable_Reachable (fun _ => zeroJunk) selectAll⟩

/-- C10, the code at a failing input: after 101 inserts on the empty table the
loop of `freeTable`, which runs to `num_rows`, reads `pages[100]` outside the
array instead of leaving a table of null slots. -/
theorem freeTable_after_101_inserts :
    ∃ t, executeInserts (List.replicate 101 (zeroJunk, insertAlice)) emptyTable =
        .ok (List.replicate 101 EXECUTE_SUCCESS, t) ∧
      Reachable t ∧ t.num_rows = 101 ∧ freeTable t = .error .outOfBounds := by
  obtain ⟨t, heq, _, hst⟩ := executeInserts_success (List.replicate 101 (zeroJunk, insertAlice))
    emptyTable [] emptyTable_WF emptyTable_Stores
    (fun c hc => by rw [List.eq_of_mem_replicate hc]; exact aliceRow_WF)
    (by rw [List.length_replicate, TABLE_MAX_ROWS_eq]; decide)
  rw [List.length_replicate] at heq
  have hr : Reachable t := executeInserts_Reachable _ _ _ _ Reachable.empty heq
  have hnum : t.num_rows = 101 := by
    rw [hst.1]
    simp
  exact ⟨t, heq, hr, hnum, freeTable_outOfBounds hr.toInv (by rw [hnum, TABLE_MAX_PAGES_eq]; decide)⟩

/-- C11: `num_rows <= TABLE_MAX_ROWS = TABLE_MAX_PAGES * ROWS_PER_PAGE` holds on
the empty table; on a well-formed table that satisfies it, `executeInsert` and
`executeSelect` return and leave a table that satisfies it, with `num_rows` not
smaller than before, and every returning call of `freeTable` leaves a table
that satisfies it (`freeTable` returns when `num_rows <= TABLE_MAX_PAGES`). -/
theorem num_rows_invariant (junk : Nat → Nat) (junk1 : Nat → Nat → Nat) (s : Statement)
    (t : Table) (hwf : t.WF) (hrow : s.row_to_insert.WF) (hle : t.num_rows ≤ TABLE_MAX_ROWS) :
    emptyTable.num_rows ≤ TABLE_MAX_ROWS ∧ TABLE_MAX_ROWS = TABLE_MAX_PAGES * ROWS_PER_PAGE ∧
    (∃ r t1, executeInsert junk s t = .ok (r, t1) ∧
      t1.num_rows ≤ TABLE_MAX_ROWS ∧ t.num_rows ≤ t1.num_rows) ∧
    (∃ t1 rows, executeSelect junk1 s t = .ok (EXECUTE_SUCCESS, t1, rows) ∧
      t1.num_rows ≤ TABLE_MAX_ROWS ∧ t.num_rows ≤ t1.num_rows) ∧
    (∀ t1, freeTable t = .ok t1 → t1.num_rows ≤ TABLE_MAX_ROWS) ∧
    (t.num_rows ≤ TABLE_MAX_PAGES → ∃ t1, freeTable t = .ok t1) := by
  refine ⟨Nat.zero_le _, rfl, ?_, ?_, ?_, ?_⟩
  · obtain ⟨r, t1, h⟩ := executeInsert_total junk s hwf hrow
    refine ⟨r, t1, h, ?_⟩
    rcases executeInsert_num_rows h with ⟨_, heq⟩ | ⟨hlt, hnum⟩
    · rw [heq]
      exact ⟨hle, Nat.le_refl _⟩
    · omega
  · obtain ⟨t1, rows, h⟩ := executeSelect_total junk1 s hwf hle
    refine ⟨t1, rows, h, ?_⟩
    have hnum : t1.num_rows = t.num_rows := by
      unfold executeSelect at h
      split at h
      · cases h
      · rename_i t2 rows2 hloop
        cases h
        exact executeSelectLoop_num_rows junk1 _ _ _ _ _ hloop
    omega
  · intro t1 h
    unfold freeTable at h
    split at h
    · cases h
    · cases h
      exact Nat.zero_le _
  · intro h100
    obtain ⟨t1, heq, _⟩ := freeTableLoop_ok t.num_rows t 0 hwf.1 h100 (Nat.zero_le _) (by omega)
    refine ⟨{ t1 with num_rows := 0 }, ?_⟩
    unfold freeTable
    rw [heq]

theorem num_rows_invariant_witness :
    emptyTable.num_rows ≤ TABLE_MAX_ROWS ∧ TABLE_MAX_ROWS = TABLE_MAX_PAGES * ROWS_PER_PAGE ∧
    (∃ r t1, executeInsert zeroJunk insertBob aliceTable = .ok (r, t1) ∧
      t1.num_rows ≤ TABLE_MAX_ROWS ∧ aliceTable.num_rows ≤ t1.num_rows) ∧
    (∃ t1 rows, executeSelect (fun _ => zeroJunk) insertBob aliceTable =
        .ok (EXECUTE_SUCCESS, t1, rows) ∧
      t1.num_rows ≤ TABLE_MAX_ROWS ∧ aliceTable.num_rows ≤ t1.num_rows) ∧
    (∀ t1, freeTable aliceTable = .ok t1 → t1.num_rows ≤ TABLE_MAX_ROWS) ∧
    (aliceTable.num_rows ≤ TABLE_MAX_PAGES → ∃ t1, freeTable aliceTable = .ok t1) :=
  num_rows_invariant zeroJunk (fun _ => zeroJunk) insertBob aliceTable aliceTable_WF bobRow_WF
    (by decide)

/-- C13: the layout constants have the values `ID_SIZE = 4`,
`USERNAME_SIZE = 32`, `EMAIL_SIZE = 255`, `ROW_SIZE = 4 + 32 + 255 = 291`,
`ROWS_PER_PAGE = 4096 / 291 = 14` and `TABLE_MAX_ROWS = 14 * 100 = 1400`. -/
theorem layout_constants :
    ID_SIZE = 4 ∧ USERNAME_SIZE = 32 ∧ EMAIL_SIZE = 255 ∧
    ROW_SIZE = ID_SIZE + USERNAME_SIZE + EMAIL_SIZE ∧ ROW_SIZE = 4 + 32 + 255 ∧ ROW_SIZE = 291 ∧
    PAGE_SIZE = 4096 ∧ ROWS_PER_PAGE = PAGE_SIZE / ROW_SIZE ∧ ROWS_PER_PAGE = 4096 / 291 ∧
    ROWS_PER_PAGE = 14 ∧ TABLE_MAX_PAGES = 100 ∧
    TABLE_MAX_ROWS = ROWS_PER_PAGE * TABLE_MAX_PAGES ∧ TABLE_MAX_ROWS = 14 * 100 ∧
    TABLE_MAX_ROWS = 1400 := by
  decide

/-- C18: for a row index `i < TABLE_MAX_ROWS` the page number
`i / ROWS_PER_PAGE` is below `TABLE_MAX_PAGES` and the byte offset leaves
`ROW_SIZE` bytes inside the page; `rowSlot` returns that slot in a page of
`PAGE_SIZE` bytes, where `serializeRow` and `deserializeRow` run without an
access out of bounds; and on a table with `num_rows <= TABLE_MAX_ROWS`
`executeInsert` and `executeSelect` run without an access out of bounds. -/
theorem rowSlot_in_bounds (junk : Nat → Nat) (junk1 : Nat → Nat → Nat) (t : Table) (hwf : t.WF)
    (i : Nat) (hi : i < TABLE_MAX_ROWS) :
    i / ROWS_PER_PAGE < TABLE_MAX_PAGES ∧ i % ROWS_PER_PAGE * ROW_SIZE + ROW_SIZE ≤ PAGE_SIZE ∧
    (∃ t1 ptr mem, rowSlot junk t i = .ok (t1, ptr) ∧ ptr.page < TABLE_MAX_PAGES ∧
      ptr.offset + ROW_SIZE ≤ PAGE_SIZE ∧ deref t1 ptr = .ok mem ∧ mem.length = PAGE_SIZE ∧
      (∀ row : Row, row.WF → ∃ mem1, serializeRow row mem ptr.offset = .ok mem1) ∧
      ∃ row, deserializeRow mem ptr.offset = .ok row) ∧
    (t.num_rows ≤ TABLE_MAX_ROWS →
      (∀ s : Statement, s.row_to_insert.WF → ∃ r t1, executeInsert junk s t = .ok (r, t1)) ∧
      ∀ s : Statement, ∃ t1 rows, executeSelect junk1 s t = .ok (EXECUTE_SUCCESS, t1, rows)) := by
  have hpage : i / ROWS_PER_PAGE < TABLE_MAX_PAGES := by
    rw [TABLE_MAX_ROWS_eq] at hi
    rw [ROWS_PER_PAGE_eq, TABLE_MAX_PAGES_eq]
    omega
  refine ⟨hpage, byteOffset_bound i, ?_, ?_⟩
  · obtain ⟨t1, h1, hwf1, _, ⟨mem, hm⟩, _, _⟩ := rowSlot_ok junk hwf hpage
    have hlen := hwf1.page_length hm
    refine ⟨t1, _, mem, h1, hpage, byteOffset_bound i, ?_, hlen, ?_, ?_⟩
    · simp only [deref, hm]
    · intro row hrow
      obtain ⟨mem1, hs, _⟩ := @deserializeRow_serializeRow row mem
        (i % ROWS_PER_PAGE * ROW_SIZE) hrow (by rw [hlen]; exact byteOffset_bound i)
      exact ⟨mem1, hs⟩
    · exact deserializeRow_ok (by rw [hlen]; exact byteOffset_bound i)
  · intro hle
    exact ⟨fun s hrow => executeInsert_total junk s hwf hrow,
      fun s => executeSelect_total junk1 s hwf hle⟩

theorem rowSlot_in_bounds_witness :
    1399 / ROWS_PER_PAGE < TABLE_MAX_PAGES ∧
    1399 % ROWS_PER_PAGE * ROW_SIZE + ROW_SIZE ≤ PAGE_SIZE ∧
    (∃ t1 ptr mem, rowSlot zeroJunk aliceTable 1399 = .ok (t1, ptr) ∧
      ptr.page < TABLE_MAX_PAGES ∧
      ptr.offset + ROW_SIZE ≤ PAGE_SIZE ∧ deref t1 ptr = .ok mem ∧ mem.length = PAGE_SIZE ∧
      (∀ row : Row, row.WF → ∃ mem1, serializeRow row mem ptr.offset = .ok mem1) ∧
      ∃ row, deserializeRow mem ptr.offset = .ok row) ∧
    (aliceTable.num_rows ≤ TABLE_MAX_ROWS →
      (∀ s : Statement, s.row_to_insert.WF →
        ∃ r t1, executeInsert zeroJunk s aliceTable = .ok (r, t1)) ∧
      ∀ s : Statement, ∃ t1 rows,
        executeSelect (fun _ => zeroJunk) s aliceTable = .ok (EXECUTE_SUCCESS, t1, rows)) :=
  rowSlot_in_bounds zeroJunk (fun _ => zeroJunk) aliceTable aliceTable_WF 1399 (by decide)

/-- C19: for row indices `i != j`, the slots that `rowSlot` returns for them
are disjoint: the page numbers differ, or the byte ranges
`[offset, offset + ROW_SIZE)` do not overlap. -/
theorem rowSlot_disjoint (junk junk1 : Nat → Nat) (t t1 u u1 : Table) (i j : Nat) (p q : Ptr)
    (hij : i ≠ j) (hi : rowSlot junk t i = .ok (t1, p))
    (hj : rowSlot junk1 u j = .ok (u1, q)) :
    p.page ≠ q.page ∨ p.offset + ROW_SIZE ≤ q.offset ∨ q.offset + ROW_SIZE ≤ p.offset := by
  rw [(rowSlot_result hi).1, (rowSlot_result hj).1]
  simp only [ROWS_PER_PAGE_eq, ROW_SIZE_eq]
  omega

theorem rowSlot_disjoint_witness :
    rowSlot zeroJunk aliceTable 0 = .ok (aliceTable, { page := 0, offset := 0 }) ∧
    rowSlot zeroJunk aliceTable 1 = .ok (aliceTable, { page := 0, offset := 291 }) ∧
    ((0 : Nat) ≠ 0 ∨ 0 + ROW_SIZE ≤ 291 ∨ 291 + ROW_SIZE ≤ 0) :=
  ⟨rowSlot_present zeroJunk aliceTable_page, rowSlot_present zeroJunk aliceTable_page,
    rowSlot_disjoint zeroJunk zeroJunk aliceTable aliceTable aliceTable aliceTable 0 1
      { page := 0, offset := 0 } { page := 0, offset := 291 } (by decide)
      (rowSlot_present zeroJunk aliceTable_page) (rowSlot_present zeroJunk aliceTable_page)⟩

/-- C12: after `n <= TABLE_MAX_ROWS` inserts on the empty table, all of them
successful, page slot `p` is present exactly when `p * ROWS_PER_PAGE < n`, so
the number of pages allocated is `n / ROWS_PER_PAGE` rounded up; after 14
inserts one page is present, after 15 two. -/
theorem pages_after_inserts (calls : List ((Nat → Nat) × Statement))
    (hlen : calls.length ≤ TABLE_MAX_ROWS) (hrows : ∀ c ∈ calls, c.2.row_to_insert.WF) :
    ∃ t, executeInserts calls emptyTable =
        .ok (List.replicate calls.length EXECUTE_SUCCESS, t) ∧
      (∀ p, p < TABLE_MAX_PAGES → (t.present p ↔ p * ROWS_PER_PAGE < calls.length)) ∧
      (∀ p, p < TABLE_MAX_PAGES → (t.absent p ↔ calls.length ≤ p * ROWS_PER_PAGE)) ∧
      t.allocated = (calls.length + ROWS_PER_PAGE - 1) / ROWS_PER_PAGE ∧
      (calls.length = 14 → t.allocated = 1) ∧ (calls.length = 15 → t.allocated = 2) := by
  obtain ⟨t, heq, _, hst⟩ := executeInserts_success calls emptyTable [] emptyTable_WF
    emptyTable_Stores hrows (by simpa [emptyTable] using hlen)
  have hnum : t.num_rows = calls.length := by
    rw [hst.1]
    simp
  have hinv := (executeInserts_Reachable _ _ _ _ Reachable.empty heq).toInv
  have hcount := hinv.allocated_eq
  rw [hnum] at hcount
  refine ⟨t, heq, ?_, ?_, hcount, ?_, ?_⟩
  · intro p hp
    rw [hinv.2.2 p hp, hnum]
  · intro p hp
    have hiff := hinv.2.2 p hp
    rw [hnum] at hiff
    constructor
    · intro ha
      by_contra hc
      obtain ⟨mem, hm⟩ := hiff.mpr (by omega)
      rw [Table.absent, hm] at ha
      cases ha
    · intro hle
      rcases hinv.1.slot hp with ha | hpr
      · exact ha
      · have := hiff.mp hpr
        omega
  · intro h14
    rw [hcount, h14]
    rfl
  · intro h15
    rw [hcount, h15]
    rfl

theorem pages_after_inserts_witness :
    (∃ t, executeInserts (List.replicate 14 (zeroJunk, insertAlice)) emptyTable =
        .ok (List.replicate 14 EXECUTE_SUCCESS, t) ∧ t.allocated = 1 ∧
        t.present 0 ∧ t.absent 1) ∧
    ∃ t, executeInserts (List.replicate 15 (zeroJunk, insertAlice)) emptyTable =
        .ok (List.replicate 15 EXECUTE_SUCCESS, t) ∧ t.allocated = 2 ∧
        t.present 0 ∧ t.present 1 ∧ t.absent 2 := by
  have hrows : ∀ n, ∀ c ∈ List.replicate n (zeroJunk, insertAlice), c.2.row_to_insert.WF :=
    fun n c hc => by rw [List.eq_of_mem_replicate hc]; exact aliceRow_WF
  constructor
  · obtain ⟨t, heq, hpres, habs, _, h14, _⟩ :=
      pages_after_inserts (List.replicate 14 (zeroJunk, insertAlice))
        (by rw [List.length_replicate]; decide) (hrows 14)
    rw [List.length_replicate] at heq hpres habs h14
    exact ⟨t, heq, h14 rfl, (hpres 0 (by decide)).mpr (by decide),
      (habs 1 (by decide)).mpr (by decide)⟩
  · obtain ⟨t, heq, hpres, habs, _, _, h15⟩ :=
      pages_after_inserts (List.replicate 15 (zeroJunk, insertAlice))
        (by rw [List.length_replicate]; decide) (hrows 15)
    rw [List.length_replicate] at heq hpres habs h15
    exact ⟨t, heq, h15 rfl, (hpres 0 (by decide)).mpr (by decide),
      (hpres 1 (by decide)).mpr (by decide), (habs 2 (by decide)).mpr (by decide)⟩

/-- C16, the code at a failing input: after 101 inserts on the empty table
`freeTable` uses the index 100 in `table->pages[i]`, which is not below
`TABLE_MAX_PAGES`. -/
theorem freeTable_index_after_101_inserts :
    ∃ t, executeInserts (List.replicate 101 (zeroJunk, insertAlice)) emptyTable =
        .ok (List.replicate 101 EXECUTE_SUCCESS, t) ∧
      Reachable t ∧ 100 ∈ freeTableIndexes t ∧ ¬ 100 < TABLE_MAX_PAGES := by
  obtain ⟨t, heq, hwf, hst⟩ := executeInserts_success (List.replicate 101 (zeroJunk, insertAlice))
    emptyTable [] emptyTable_WF emptyTable_Stores
    (fun c hc => by rw [List.eq_of_mem_replicate hc]; exact aliceRow_WF)
    (by rw [List.length_replicate, TABLE_MAX_ROWS_eq]; decide)
  rw [List.length_replicate] at heq
  have hnum : t.num_rows = 101 := by
    rw [hst.1]
    simp
  refine ⟨t, heq, executeInserts_Reachable _ _ _ _ Reachable.empty heq, ?_, by decide⟩
  exact freeTableLoopIndexes_outOfBounds t.num_rows t 0 hwf.1
    (by rw [hnum, TABLE_MAX_PAGES_eq]; decide) (Nat.zero_le _)
    (by rw [hnum, TABLE_MAX_PAGES_eq]; decide)

/-- C17 as stated fails: no table reachable from the empty table by calls of
`executeInsert` keeps a page that was allocated once `freeTable` has
returned. -/
theorem freeTable_leak_counterexample :
    ¬ ∃ t t1 p, Reachable t ∧ freeTable t = .ok t1 ∧ t.present p ∧ t1.present p := by
  rintro ⟨t, t1, p, hr, hfree, _, hp1⟩
  by_cases hn : t.num_rows ≤ TABLE_MAX_PAGES
  · rw [freeTable_ok hr.toInv hn] at hfree
    cases hfree
    exact emptyTable_not_present p hp1
  · rw [freeTable_outOfBounds hr.toInv (by omega)] at hfree
    cases hfree

/-- C17, amended: on a table reachable from the empty table by calls of
`executeInsert`, the release loop bounded by `num_rows` leaves no page behind:
when `freeTable` returns, no page slot is present afterwards, and it returns,
with the empty table, whenever `num_rows <= TABLE_MAX_PAGES`. -/
theorem freeTable_no_leak (t : Table) (hr : Reachable t) :
    (∀ t1, freeTable t = .ok t1 → ∀ p, ¬ t1.present p) ∧
      (t.num_rows ≤ TABLE_MAX_PAGES → freeTable t = .ok emptyTable) := by
  refine ⟨?_, fun hn => freeTable_ok hr.toInv hn⟩
  intro t1 hfree p hp1
  by_cases hn : t.num_rows ≤ TABLE_MAX_PAGES
  · rw [freeTable_ok hr.toInv hn] at hfree
    cases hfree
    exact emptyTable_not_present p hp1
  · rw [freeTable_outOfBounds hr.toInv (by omega)] at hfree
    cases hfree

theorem freeTable_no_leak_witness :
    ∃ t, executeInserts (List.replicate 15 (zeroJunk, insertAlice)) emptyTable =
        .ok (List.replicate 15 EXECUTE_SUCCESS, t) ∧
      Reachable t ∧ t.allocated = 2 ∧ freeTable t = .ok emptyTable := by
  obtain ⟨t, heq, _, hst⟩ := executeInserts_success (List.replicate 15 (zeroJunk, insertAlice))
    emptyTable [] emptyTable_WF emptyTable_Stores
    (fun c hc => by rw [List.eq_of_mem_replicate hc]; exact aliceRow_WF)
    (by rw [List.length_replicate, TABLE_MAX_ROWS_eq]; decide)
  rw [List.length_replicate] at heq
  have hnum : t.num_rows = 15 := by
    rw [hst.1]
    simp
  have hr : Reachable t := executeInserts_Reachable _ _ _ _ Reachable.empty heq
  refine ⟨t, heq, hr, ?_, (freeTable_no_leak t hr).2 (by rw [hnum, TABLE_MAX_PAGES_eq]; decide)⟩
  rw [hr.toInv.allocated_eq, hnum]
  rfl

/-- C14: for a row of the C type and a buffer with at least `ROW_SIZE` bytes
from `dest` on, after `serializeRow` the buffer holds the 4 bytes of the id at
offsets `[0, 4)` from `dest`, the 32 username bytes at `[4, 36)` and the 255
email bytes at `[36, 291)`; the three regions follow one another and fill
`[0, ROW_SIZE)`; every byte at offset `ROW_SIZE` or more (and every byte before
`dest`) is as it was. -/
theorem serializeRow_layout (row : Row) (buffer : List Nat) (dest : Nat) (hrow : row.WF)
    (hbuf : dest + ROW_SIZE ≤ buffer.length) :
    ID_OFFSET = 0 ∧ ID_SIZE = 4 ∧ USERNAME_OFFSET = ID_OFFSET + ID_SIZE ∧ USERNAME_SIZE = 32 ∧
    EMAIL_OFFSET = USERNAME_OFFSET + USERNAME_SIZE ∧ EMAIL_OFFSET = 36 ∧ EMAIL_SIZE = 255 ∧
    EMAIL_OFFSET + EMAIL_SIZE = ROW_SIZE ∧ ROW_SIZE = 291 ∧
    ∃ buffer1, serializeRow row buffer dest = .ok buffer1 ∧ buffer1.length = buffer.length ∧
      memRead buffer1 (dest + ID_OFFSET) ID_SIZE = .ok (u32Bytes row.id) ∧
      memRead buffer1 (dest + USERNAME_OFFSET) USERNAME_SIZE = .ok row.username ∧
      memRead buffer1 (dest + EMAIL_OFFSET) EMAIL_SIZE = .ok row.email ∧
      memRead buffer1 dest ROW_SIZE = .ok (u32Bytes row.id ++ row.username ++ row.email) ∧
      (∀ k, dest + ROW_SIZE ≤ k → buffer1[k]? = buffer[k]?) ∧
      ∀ k, k < dest → buffer1[k]? = buffer[k]? := by
  refine ⟨rfl, rfl, rfl, rfl, rfl, rfl, rfl, rfl, rfl, ?_⟩
  obtain ⟨buffer1, hs, hlen, hid, hu, he, _⟩ := serializeRow_reads hrow hbuf
  obtain ⟨buffer2, hs2, heq, hslot⟩ := serializeRow_slot hrow hbuf
  have h12 : buffer2 = buffer1 := Except.ok.inj (hs2.symm.trans hs)
  subst h12
  have hpre : (buffer.take dest).length = dest := by
    rw [List.length_take]
    omega
  have hbody : (u32Bytes row.id ++ row.username ++ row.email).length = ROW_SIZE := by
    rw [List.length_append, List.length_append, u32Bytes_length, hrow.2.1, hrow.2.2.1]
    rfl
  refine ⟨buffer2, hs, hlen, hid, hu, he, hslot, ?_, ?_⟩
  · intro k hk
    rw [heq, List.getElem?_append_right (by rw [List.length_append, hpre, hbody]; exact hk),
      List.getElem?_drop, List.length_append, hpre, hbody]
    have hk1 : dest + ROW_SIZE + (k - (dest + ROW_SIZE)) = k := by omega
    rw [hk1]
  · intro k hk
    rw [heq, List.append_assoc, List.getElem?_append_left (by rw [hpre]; exact hk),
      List.getElem?_take_of_lt hk]

theorem serializeRow_layout_witness :
    ∃ buffer1, serializeRow aliceRow (List.replicate 300 7) 5 = .ok buffer1 ∧
      memRead buffer1 5 291 = .ok (u32Bytes 1 ++ aliceRow.username ++ aliceRow.email) ∧
      buffer1[4]? = some 7 ∧ buffer1[296]? = some 7 := by
  obtain ⟨_, _, _, _, _, _, _, _, _, buffer1, hs, _, _, _, _, hslot, hafter, hbefore⟩ :=
    serializeRow_layout aliceRow (List.replicate 300 7) 5 aliceRow_WF
      (by rw [List.length_replicate, ROW_SIZE_eq]; decide)
  refine ⟨buffer1, hs, hslot, ?_, ?_⟩
  · rw [hbefore 4 (by decide), List.getElem?_replicate]
    rfl
  · rw [hafter 296 (by decide), List.getElem?_replicate]
    rfl

/-- C15: for a buffer `b` of bytes with at least `ROW_SIZE` bytes from `src`
on, `deserializeRow` returns a row, and `serializeRow` of that row into any
destination with room for it leaves there the `ROW_SIZE` bytes that `b` holds
at `src`. -/
theorem serializeRow_deserializeRow (b d : List Nat) (src dest : Nat)
    (hbytes : ∀ x ∈ b, x < 256) (hb : src + ROW_SIZE ≤ b.length)
    (hd : dest + ROW_SIZE ≤ d.length) :
    ∃ row d1, deserializeRow b src = .ok row ∧ serializeRow row d dest = .ok d1 ∧
      memRead d1 dest ROW_SIZE = memRead b src ROW_SIZE ∧
      memRead b src ROW_SIZE = .ok ((b.drop src).take ROW_SIZE) := by
  obtain ⟨row, hde, hwf, hrow⟩ := deserializeRow_eq hbytes hb
  obtain ⟨d1, hs, _, hslot⟩ := @serializeRow_slot row d dest hwf hd
  have hread : memRead b src ROW_SIZE = .ok ((b.drop src).take ROW_SIZE) := by
    unfold memRead
    rw [if_pos hb]
  exact ⟨row, d1, hde, hs, by rw [hslot, hread, hrow], hread⟩

theorem serializeRow_deserializeRow_witness :
    ∃ row d1, deserializeRow (List.replicate 300 7) 5 = .ok row ∧
      serializeRow row (List.replicate 4096 0) 291 = .ok d1 ∧
      memRead d1 291 ROW_SIZE = memRead (List.replicate 300 7) 5 ROW_SIZE ∧
      memRead (List.replicate 300 7) 5 ROW_SIZE =
        .ok (((List.replicate 300 7).drop 5).take ROW_SIZE) :=
  serializeRow_deserializeRow (List.replicate 300 7) (List.replicate 4096 0) 5 291
    (fun x hx => by rw [List.eq_of_mem_replicate hx]; decide)
    (by rw [List.length_replicate, ROW_SIZE_eq]; decide)
    (by rw [List.length_replicate, ROW_SIZE_eq]; decide)

end DbTutorial
